import Mathlib

/-
Verification of the RouteE Compass core search and map-matching subsystems.

The Rust sources are shallowly embedded: machine floats (f64 Cost and
StateVariable values) are modelled as rationals, usize as Nat, and the
fallible label-model trait object as a total comparison function.
Collaborator types that live outside the verified sources (the SearchTree
container, the Label enum, the priority queue) are modelled from the
specification document and marked as such.
-/

namespace Compass

/-- Opaque dense integer identifier of a vertex (src: model/network). -/
abbrev VertexId := Nat

/-- Opaque dense integer identifier of an edge (src: model/network). -/
abbrev EdgeId := Nat

/-- Identifier of one edge list layer (src: model/network). -/
abbrev EdgeListId := Nat

/-- Modelled from the spec: `Cost` (model/unit, not under src/) is a scalar
objective value, an f64 in Rust; modelled as a rational number. The Rust
`Default` for the wrapper of a numeric scalar is zero. -/
abbrev Cost := ℚ

/-- A 64-bit floating-point state value (spec section 3), modelled as ℚ. -/
abbrev StateVariable := ℚ

/-- Modelled from the spec: `Label` (model/label, not under src/) is a tagged
variant over Vertex(VertexId) and VertexWithIntState(VertexId, compact int). -/
inductive Label where
  | vertex (vertexId : VertexId)
  | vertexWithIntState (vertexId : VertexId) (state : Int)
deriving DecidableEq

/-- The vertex a label projects to. -/
def Label.vertexId : Label → VertexId
  | .vertex v => v
  | .vertexWithIntState v _ => v

/-- Modelled from the spec: labels with the attribute does_not_require_pruning
(the basic Vertex variant when used alone) skip dominance entirely. -/
def Label.doesNotRequirePruning : Label → Bool
  | .vertex _ => true
  | .vertexWithIntState _ _ => false

/-- Tree orientation (src: algorithm/search Direction). -/
inductive Direction where
  | forward
  | reverse
deriving DecidableEq

/-- TraversalCost record: objective_cost drives search priority, total_cost is
reported (spec section 3, model/cost not under src/). -/
structure TraversalCost where
  objective_cost : Cost
  total_cost : Cost
deriving DecidableEq

/-- EdgeTraversal record (spec section 3): edge identity, cost and the state
vector that results from traversing the edge. -/
structure EdgeTraversal where
  edge_list_id : EdgeListId
  edge_id : EdgeId
  cost : TraversalCost
  result_state : List StateVariable
deriving DecidableEq

/-- A node in the search tree containing parent and child bookkeeping and
traversal data (src: algorithm/search/search_tree_node.rs). -/
inductive SearchTreeNode where
  | root (direction : Direction) (child_count : Nat)
  | branch (incoming_edge : EdgeTraversal) (parent : Label)
      (direction : Direction) (child_count : Nat)
deriving DecidableEq

namespace SearchTreeNode

/-- SearchTreeNode::parent_label. -/
def parentLabel : SearchTreeNode → Option Label
  | .root _ _ => none
  | .branch _ parent _ _ => some parent

/-- SearchTreeNode::incoming_edge. -/
def incomingEdge : SearchTreeNode → Option EdgeTraversal
  | .root _ _ => none
  | .branch incoming_edge _ _ _ => some incoming_edge

/-- SearchTreeNode::traversal_cost. -/
def traversalCost : SearchTreeNode → Option TraversalCost
  | .root _ _ => none
  | .branch incoming_edge _ _ _ => some incoming_edge.cost

/-- SearchTreeNode::child_count. -/
def childCount : SearchTreeNode → Nat
  | .root _ child_count => child_count
  | .branch _ _ _ child_count => child_count

/-- SearchTreeNode::increment_child_count. -/
def incrementChildCount : SearchTreeNode → SearchTreeNode
  | .root d child_count => .root d (child_count + 1)
  | .branch e p d child_count => .branch e p d (child_count + 1)

/-- SearchTreeNode::decrement_child_count: guarded so that a zero count is
left untouched (the Rust source tests child_count > 0 before subtracting). -/
def decrementChildCount : SearchTreeNode → SearchTreeNode
  | .root d child_count =>
      if 0 < child_count then .root d (child_count - 1) else .root d child_count
  | .branch e p d child_count =>
      if 0 < child_count then .branch e p d (child_count - 1)
      else .branch e p d child_count

/-- SearchTreeNode::is_prunable: a node with zero children. -/
def isPrunable (n : SearchTreeNode) : Bool :=
  n.childCount = 0

end SearchTreeNode

/-- C9: decrement_child_count never underflows: at zero it is a no-op leaving
the node unchanged, at a positive count it subtracts exactly one, and
increment_child_count always adds exactly one. -/
theorem search_tree_node_child_count_safety (n : SearchTreeNode) :
    (n.childCount = 0 → n.decrementChildCount = n)
    ∧ (0 < n.childCount →
        n.decrementChildCount.childCount = n.childCount - 1)
    ∧ n.incrementChildCount.childCount = n.childCount + 1 := by
  refine ⟨?_, ?_, ?_⟩
  · intro h
    cases n <;> simp_all [SearchTreeNode.childCount,
      SearchTreeNode.decrementChildCount]
  · intro h
    cases n <;> simp_all [SearchTreeNode.childCount,
      SearchTreeNode.decrementChildCount]
  · cases n <;> simp [SearchTreeNode.childCount,
      SearchTreeNode.incrementChildCount]

/-- Witness for C9 at concrete nodes: a root with zero children and a branch
with five children. -/
theorem search_tree_node_child_count_safety_witness :
    ((SearchTreeNode.root .forward 0).decrementChildCount
        = SearchTreeNode.root .forward 0)
    ∧ (SearchTreeNode.branch ⟨0, 0, ⟨1, 1⟩, []⟩ (.vertex 3) .forward 5
        |>.decrementChildCount |>.childCount) = 4
    ∧ ((SearchTreeNode.root .forward 0).incrementChildCount.childCount = 1) :=
  ⟨(search_tree_node_child_count_safety (.root .forward 0)).1 (by decide),
   (search_tree_node_child_count_safety
      (.branch ⟨0, 0, ⟨1, 1⟩, []⟩ (.vertex 3) .forward 5)).2.1 (by decide),
   (search_tree_node_child_count_safety (.root .forward 0)).2.2⟩

/-- Tree errors surfaced by pruning (src: algorithm/search errors). -/
inductive SearchTreeError where
  | missingNodeForLabel (label : Label)
  | pruningError (msg : String)
deriving DecidableEq

/-- Test whether the next label Pareto-dominates the previous label
(src: search_pruning.rs test_dominates). The Rust label model comparison is a
fallible trait call; it is modelled as a total comparison function, so the
Result wrapper disappears. -/
def testDominates (compare : Label → Label → Ordering)
    (prev_label : Label) (prev_cost : Cost)
    (next_label : Label) (next_cost : Cost) : Bool :=
  match compare prev_label next_label with
  | .lt => decide (next_cost ≤ prev_cost)
  | .eq => decide (next_cost < prev_cost)
  | .gt => false

/-- The state-of-charge label model comparison used by the pruning unit tests
(src: search_pruning.rs tests, SocLabelModel::compare): compares the compact
integer states of two VertexWithIntState labels. Other pairings are
unreachable in the test; they are mapped to Equal here. -/
def socCompare : Label → Label → Ordering
  | .vertexWithIntState _ s1, .vertexWithIntState _ s2 => compare s1 s2
  | _, _ => .eq

/-- C1: test_dominates returns true exactly when the label comparison is Less
and next_cost is at most prev_cost, or Equal and next_cost is strictly below
prev_cost; a Greater comparison never dominates (this is immediate from the
characterization, since the comparison cannot be both Greater and Less or
Equal). On the concrete S6 inputs, (state 30, cost 50) against
(state 80, cost 40) dominates, while against (state 80, cost 70) it does not. -/
theorem test_dominates_spec :
    (∀ (compare : Label → Label → Ordering) prev_label prev_cost
        next_label next_cost,
      testDominates compare prev_label prev_cost next_label next_cost = true
        ↔ ((compare prev_label next_label = .lt ∧ next_cost ≤ prev_cost)
            ∨ (compare prev_label next_label = .eq ∧ next_cost < prev_cost)))
    ∧ testDominates socCompare
        (.vertexWithIntState 0 30) 50 (.vertexWithIntState 0 80) 40 = true
    ∧ testDominates socCompare
        (.vertexWithIntState 0 30) 50 (.vertexWithIntState 0 80) 70 = false := by
  refine ⟨?_, by decide, by decide⟩
  intro cmp pl pc nl nc
  unfold testDominates
  rcases h : cmp pl nl <;> simp [h]

/-- Modelled from the spec: the SearchTree container (algorithm/search, not
under src/) maps labels to nodes and keeps a secondary vertex index whose
entries exactly cover the keys of the node map (spec section 4.1); it is
modelled as an association list with the vertex index derived by filtering. -/
structure SearchTree where
  direction : Direction
  nodes : List (Label × SearchTreeNode)
deriving DecidableEq

namespace SearchTree

/-- SearchTree::get, modelled from the spec: lookup of the node stored at a
label. -/
def get (t : SearchTree) (l : Label) : Option SearchTreeNode :=
  (t.nodes.find? (fun p => p.1 = l)).map Prod.snd

/-- SearchTree::len, modelled from the spec. -/
def len (t : SearchTree) : Nat :=
  t.nodes.length

/-- SearchTree::is_empty, modelled from the spec. -/
def isEmpty (t : SearchTree) : Bool :=
  t.nodes.isEmpty

/-- SearchTree::get_labels_iter, modelled from the spec: the labels registered
at a vertex; the vertex index exactly covers the keys of the node map. -/
def getLabelsAt (t : SearchTree) (v : VertexId) : List Label :=
  (t.nodes.filter (fun p => p.1.vertexId = v)).map Prod.fst

/-- SearchTree::remove, modelled from the spec: removes the node only if
prunable, decrements the parent child count, removes the vertex-index entry,
and is a silent no-op on a missing or non-prunable label (spec section 4.1). -/
def remove (t : SearchTree) (l : Label) : SearchTree :=
  match t.get l with
  | none => t
  | some n =>
    if n.isPrunable then
      let pruned := t.nodes.filter (fun p => ¬ p.1 = l)
      match n.parentLabel with
      | none => { t with nodes := pruned }
      | some pl =>
          { t with
            nodes := pruned.map (fun p =>
              if p.1 = pl then (p.1, p.2.decrementChildCount) else p) }
    else t

end SearchTree

/-- One iteration of the pruning loop in prune_tree
(src: search_pruning.rs lines 43 to 65): if the new label dominates this
previous entry and the previous node is currently prunable, remove it. -/
def pruneStep (compare : Label → Label → Ordering) (next_label : Label)
    (next_cost : Cost) (t : SearchTree) (entry : Label × Cost) : SearchTree :=
  if testDominates compare entry.1 entry.2 next_label next_cost then
    let prunable := ((t.get entry.1).map (fun n => n.isPrunable)).getD false
    if prunable then t.remove entry.1 else t
  else t

/-- The collection of previous entries in prune_tree
(src: search_pruning.rs lines 32 to 41): each label registered at the vertex
is paired with its objective cost, where a node without a traversal cost (the
root) contributes the default cost zero; a label missing from the node map is
a MissingNodeForLabel error. -/
def collectEntries (tree : SearchTree) : List Label →
    Except SearchTreeError (List (Label × Cost))
  | [] => .ok []
  | label :: rest =>
    match tree.get label with
    | none => .error (.missingNodeForLabel label)
    | some node =>
      match collectEntries tree rest with
      | .error e => .error e
      | .ok entries =>
          .ok ((label,
            ((node.traversalCost.map
              (fun tc : TraversalCost => tc.objective_cost)).getD
                (0 : Cost))) :: entries)

/-- Prune labels from the search tree that are Pareto-dominated by the new
label (src: search_pruning.rs prune_tree). -/
def pruneTree (tree : SearchTree) (next_label : Label)
    (traversal : EdgeTraversal) (compare : Label → Label → Ordering) :
    Except SearchTreeError SearchTree :=
  if next_label.doesNotRequirePruning then .ok tree
  else
    let next_cost := traversal.cost.objective_cost
    match collectEntries tree (tree.getLabelsAt next_label.vertexId) with
    | .error e => .error e
    | .ok prev_entries =>
        .ok (prev_entries.foldl (pruneStep compare next_label next_cost) tree)

/-- Search errors surfaced by the frontier (src: algorithm/search errors). -/
inductive SearchError where
  | noPathExistsBetweenVertices (source : VertexId) (target : VertexId)
      (treeLen : Nat)
deriving DecidableEq

/-- Ephemeral record bridging queue entries to expansion
(src: frontier_instance.rs). -/
structure FrontierInstance where
  prev_label : Label
  prev_edge : Option (EdgeListId × EdgeId)
  prev_state : List StateVariable
deriving DecidableEq

/-- FrontierInstance::pop_new (src: frontier_instance.rs). The priority queue
is modelled from the spec as the list of entries in pop order; popping takes
the head. The loop keeps popping until a returnable label, a termination
condition, or exhaustion. -/
def popNew (frontier : List (Label × Cost)) (source : VertexId)
    (target : Option VertexId) (solution : SearchTree)
    (initial_state : List StateVariable) :
    Except SearchError (Option FrontierInstance) :=
  match frontier with
  | [] =>
    match target with
    | some target_vertex_id =>
        .error (.noPathExistsBetweenVertices source target_vertex_id
          solution.len)
    | none => .ok none
  | (prev_label, _) :: rest =>
    if target = some prev_label.vertexId then .ok none
    else
      let node_opt := solution.get prev_label
      if node_opt.isNone && !solution.isEmpty then
        popNew rest source target solution initial_state
      else
        let prev_edge_traversal_opt := node_opt.bind (fun n => n.incomingEdge)
        let prev_edge := prev_edge_traversal_opt.map (fun et =>
          (et.edge_list_id, et.edge_id))
        let prev_state :=
          match prev_edge_traversal_opt with
          | none => initial_state
          | some et => et.result_state
        .ok (some ⟨prev_label, prev_edge, prev_state⟩)

/-- A tree empty as a boolean holds no label. -/
theorem SearchTree.get_eq_none_of_isEmpty (t : SearchTree) (l : Label)
    (h : t.isEmpty = true) : t.get l = none := by
  unfold SearchTree.isEmpty at h
  unfold SearchTree.get
  rw [List.isEmpty_iff] at h
  rw [h]
  rfl

/-- C3: pop_new skips silently over a popped label that has no node in a
non-empty tree, never returns a FrontierInstance whose label is absent from a
non-empty tree, and on an empty tree returns the popped (non-target) label
with no previous edge and the initial state. -/
theorem pop_new_skip_on_pruned :
    (∀ (frontier : List (Label × Cost)) source target solution initial_state
        fi,
      solution.isEmpty = false →
      popNew frontier source target solution initial_state = .ok (some fi) →
      (solution.get fi.prev_label).isSome)
    ∧ (∀ (l : Label) (c : Cost) rest source target solution initial_state,
        solution.isEmpty = false → solution.get l = none →
        target ≠ some l.vertexId →
        popNew ((l, c) :: rest) source target solution initial_state
          = popNew rest source target solution initial_state)
    ∧ (∀ (l : Label) (c : Cost) rest source target solution initial_state,
        solution.isEmpty = true → target ≠ some l.vertexId →
        popNew ((l, c) :: rest) source target solution initial_state
          = .ok (some ⟨l, none, initial_state⟩)) := by
  refine ⟨?_, ?_, ?_⟩
  · intro frontier
    induction frontier with
    | nil =>
      intro source target solution initial_state fi hne h
      cases target <;> simp [popNew] at h
    | cons e rest ih =>
      intro source target solution initial_state fi hne h
      obtain ⟨l, c⟩ := e
      rw [popNew] at h
      by_cases ht : target = some l.vertexId
      · rw [if_pos ht] at h
        exact absurd h (by simp)
      · rw [if_neg ht] at h
        by_cases hskip :
            ((solution.get l).isNone && !solution.isEmpty) = true
        · rw [if_pos hskip] at h
          exact ih source target solution initial_state fi hne h
        · rw [if_neg hskip] at h
          have hl : fi.prev_label = l := by
            have := congrArg (fun r =>
              match r with
              | Except.ok (some fi) => fi.prev_label
              | _ => l) h
            simpa using this.symm
          rw [hl]
          rcases hg : solution.get l with _ | n
          · exact absurd (by simp [hg, hne]) hskip
          · simp
  · intro l c rest source target solution initial_state hne hget ht
    rw [popNew]
    rw [if_neg ht, if_pos]
    simp [hget, hne]
  · intro l c rest source target solution initial_state he ht
    rw [popNew]
    rw [if_neg ht, if_neg]
    · have hg := SearchTree.get_eq_none_of_isEmpty solution l he
      simp [hg]
    · simp [he]

/-- Witness for C3 at concrete inputs: a queue holding a pruned label and a
live label over a one-node tree, and a queue over the empty tree. -/
theorem pop_new_skip_on_pruned_witness :
    ((SearchTree.mk .forward [(.vertex 1, .root .forward 0)]).isEmpty = false
      ∧ ((SearchTree.mk .forward
          [(.vertex 1, .root .forward 0)]).get (.vertex 1)).isSome = true)
    ∧ popNew [(Label.vertex 2, (5 : Cost)), (Label.vertex 1, 7)] 0 none
        (SearchTree.mk .forward [(.vertex 1, .root .forward 0)]) [3]
        = popNew [(Label.vertex 1, 7)] 0 none
          (SearchTree.mk .forward [(.vertex 1, .root .forward 0)]) [3]
    ∧ popNew [(Label.vertex 2, (5 : Cost))] 0 none
        (SearchTree.mk .forward []) [3]
        = .ok (some ⟨.vertex 2, none, [3]⟩) := by
  refine ⟨⟨by decide, by decide⟩, ?_, ?_⟩
  · exact pop_new_skip_on_pruned.2.1 (.vertex 2) 5 [(Label.vertex 1, 7)] 0
      none (SearchTree.mk .forward [(.vertex 1, .root .forward 0)]) [3]
      (by decide) (by decide) (by decide)
  · exact pop_new_skip_on_pruned.2.2 (.vertex 2) 5 [] 0 none
      (SearchTree.mk .forward []) [3] (by decide) (by decide)

/-- A label is present in the tree exactly when some stored pair carries it. -/
theorem SearchTree.get_isSome_iff (t : SearchTree) (l : Label) :
    (t.get l).isSome ↔ ∃ p ∈ t.nodes, p.1 = l := by
  unfold SearchTree.get
  rw [Option.isSome_map']
  rw [List.find?_isSome]
  simp

/-- Membership of a key among the nodes left after the removal step. -/
theorem SearchTree.remove_mem_key (t : SearchTree) (l rl : Label)
    (h : rl ≠ l) :
    (∃ p ∈ (t.remove l).nodes, p.1 = rl) ↔ ∃ p ∈ t.nodes, p.1 = rl := by
  unfold SearchTree.remove
  rcases hget : t.get l with _ | n
  · simp only [hget]
  · simp only [hget]
    by_cases hp : n.isPrunable = true
    · rw [if_pos hp]
      rcases hpar : n.parentLabel with _ | pl
      · simp only [List.mem_filter]
        constructor
        · rintro ⟨p, ⟨hpmem, _⟩, hpl⟩
          exact ⟨p, hpmem, hpl⟩
        · rintro ⟨p, hpmem, hpl⟩
          exact ⟨p, ⟨hpmem, by simp [hpl, h]⟩, hpl⟩
      · simp only [List.mem_map, List.mem_filter]
        constructor
        · rintro ⟨p, ⟨q, ⟨hqmem, _⟩, hqp⟩, hpl⟩
          refine ⟨q, hqmem, ?_⟩
          by_cases hq : q.1 = pl
          · rw [if_pos hq] at hqp
            rw [← hqp] at hpl
            simpa [hq] using hpl
          · rw [if_neg hq] at hqp
            rw [hqp]
            exact hpl
        · rintro ⟨p, hpmem, hpl⟩
          by_cases hq : p.1 = pl
          · refine ⟨(p.1, p.2.decrementChildCount),
              ⟨p, ⟨hpmem, by simp [hpl, h]⟩, by rw [if_pos hq]⟩, hpl⟩
          · refine ⟨p, ⟨p, ⟨hpmem, by simp [hpl, h]⟩, by rw [if_neg hq]⟩, hpl⟩
    · rw [if_neg hp]

/-- Removing one label does not evict any other label from the tree. -/
theorem SearchTree.remove_get_isSome (t : SearchTree) (l rl : Label)
    (h : rl ≠ l) : ((t.remove l).get rl).isSome = (t.get rl).isSome := by
  rw [Bool.eq_iff_iff, SearchTree.get_isSome_iff, SearchTree.get_isSome_iff]
  exact SearchTree.remove_mem_key t l rl h

/-- Every collected pruning entry carries the objective cost of the node the
tree stores for its label, with the zero default for a costless node. -/
theorem collectEntries_mem (tree : SearchTree) :
    ∀ (labels : List Label) (entries : List (Label × Cost)),
    collectEntries tree labels = .ok entries →
    ∀ e ∈ entries, ∃ node, tree.get e.1 = some node ∧
      e.2 = ((node.traversalCost.map
        (fun tc : TraversalCost => tc.objective_cost)).getD 0) := by
  intro labels
  induction labels with
  | nil =>
    intro entries h e he
    unfold collectEntries at h
    cases h
    simp at he
  | cons label rest ih =>
    intro entries h e he
    unfold collectEntries at h
    rcases hget : tree.get label with _ | node
    · rw [hget] at h
      exact absurd h (by simp)
    · rw [hget] at h
      rcases hrest : collectEntries tree rest with err | es
      · rw [hrest] at h
        exact absurd h (by simp)
      · rw [hrest] at h
        have hent : entries = (label,
            ((node.traversalCost.map
              (fun tc : TraversalCost => tc.objective_cost)).getD 0)) :: es := by
          cases h
          rfl
        subst hent
        rcases List.mem_cons.mp he with he | he
        · subst he
          exact ⟨node, hget, rfl⟩
        · exact ih es hrest e he

/-- With a strictly positive new cost, a zero-cost previous label is never
dominated. -/
theorem testDominates_zero_prev (cmp : Label → Label → Ordering)
    (pl nl : Label) (nc : Cost) (h : 0 < nc) :
    testDominates cmp pl 0 nl nc = false := by
  unfold testDominates
  rcases cmp pl nl <;> simp <;> linarith

/-- The pruning loop keeps every label whose collected cost entries are all
zero when the new cost is strictly positive. -/
theorem foldl_pruneStep_keeps_zero_cost (cmp : Label → Label → Ordering)
    (nl : Label) (nc : Cost) (hnc : 0 < nc) (rl : Label) :
    ∀ (entries : List (Label × Cost)) (t : SearchTree),
    (∀ pc, (rl, pc) ∈ entries → pc = 0) →
    (t.get rl).isSome →
    ((entries.foldl (pruneStep cmp nl nc) t).get rl).isSome := by
  intro entries
  induction entries with
  | nil =>
    intro t hz hs
    exact hs
  | cons e rest ih =>
    intro t hz hs
    obtain ⟨el, ec⟩ := e
    rw [List.foldl_cons]
    refine ih (pruneStep cmp nl nc t (el, ec)) ?_ ?_
    · intro pc hpc
      exact hz pc (List.mem_cons_of_mem _ hpc)
    · by_cases hel : el = rl
      · subst hel
        have hec : ec = 0 := hz ec (by simp)
        subst hec
        unfold pruneStep
        rw [testDominates_zero_prev cmp el nl nc hnc]
        simpa using hs
      · unfold pruneStep
        by_cases hd : testDominates cmp el ec nl nc = true
        · rw [if_pos hd]
          by_cases hprun : (((t.get el).map
              (fun n => n.isPrunable)).getD false) = true
          · rw [if_pos hprun]
            rw [SearchTree.remove_get_isSome t el rl
              (fun hh => hel hh.symm)]
            exact hs
          · rw [if_neg hprun]
            exact hs
        · rw [if_neg hd]
          exact hs

/-- The objective cost prune_tree associates with a stored node. -/
def nodeCost (n : SearchTreeNode) : Cost :=
  ((n.traversalCost.map
    (fun tc : TraversalCost => tc.objective_cost)).getD 0)

/-- The number of stored nodes naming a label as their parent. -/
def SearchTree.childrenCount (t : SearchTree) (l : Label) : Nat :=
  t.nodes.countP (fun p => p.2.parentLabel = some l)

/-- Spec section 4.1 invariants of the search tree: unique keys, child counts
equal to the number of stored children, and no dangling parent references. -/
def SearchTree.Wf (t : SearchTree) : Prop :=
  (t.nodes.map Prod.fst).Nodup
  ∧ (∀ p ∈ t.nodes, p.2.childCount = t.childrenCount p.1)
  ∧ (∀ p ∈ t.nodes, ∀ pl, p.2.parentLabel = some pl →
      ∃ q ∈ t.nodes, q.1 = pl)

instance (t : SearchTree) : Decidable t.Wf := by
  unfold SearchTree.Wf
  infer_instance

/-- Decrementing the child count never alters the parent pointer. -/
theorem SearchTreeNode.parentLabel_decrement (n : SearchTreeNode) :
    n.decrementChildCount.parentLabel = n.parentLabel := by
  cases n with
  | root d c =>
    by_cases hc : 0 < c <;>
      simp [SearchTreeNode.decrementChildCount, hc,
        SearchTreeNode.parentLabel]
  | branch e p d c =>
    by_cases hc : 0 < c <;>
      simp [SearchTreeNode.decrementChildCount, hc,
        SearchTreeNode.parentLabel]

/-- A successful lookup exposes a stored pair. -/
theorem SearchTree.get_mem (t : SearchTree) (l : Label) (n : SearchTreeNode)
    (h : t.get l = some n) : (l, n) ∈ t.nodes := by
  unfold SearchTree.get at h
  rcases hf : t.nodes.find? (fun p => p.1 = l) with _ | p
  · rw [hf] at h
    cases h
  · rw [hf] at h
    have hmem := List.mem_of_find?_eq_some hf
    have hkey : p.1 = l := by simpa using List.find?_some hf
    have hval : p.2 = n := by
      cases h
      rfl
    rw [← hkey, ← hval]
    exact hmem

/-- First-match lookup, after dropping the removed key and rewriting node
values in a key-preserving way, agrees with the original first match. -/
theorem find?_filter_map_key (g : Label × SearchTreeNode →
      Label × SearchTreeNode) (hg : ∀ p, (g p).1 = p.1) (l x : Label)
    (hx : x ≠ l) :
    ∀ (nodes : List (Label × SearchTreeNode)),
    ((nodes.filter (fun p => ¬ p.1 = l)).map g).find? (fun p => p.1 = x)
      = (nodes.find? (fun p => p.1 = x)).map g := by
  intro nodes
  induction nodes with
  | nil => rfl
  | cons a rest ih =>
    by_cases hax : a.1 = x
    · have hkeep : (¬ a.1 = l) := by
        rw [hax]
        exact hx
      rw [List.filter_cons_of_pos (by simpa using hkeep)]
      rw [List.map_cons]
      rw [List.find?_cons_of_pos _ (by simp [hg, hax])]
      rw [List.find?_cons_of_pos _ (by simp [hax])]
      rfl
    · by_cases hal : a.1 = l
      · rw [List.filter_cons_of_neg (by simp [hal])]
        rw [ih]
        rw [List.find?_cons_of_neg _ (by simp [hax])]
      · rw [List.filter_cons_of_pos (by simpa using hal)]
        rw [List.map_cons]
        rw [List.find?_cons_of_neg _ (by simp [hg, hax])]
        rw [List.find?_cons_of_neg _ (by simp [hax])]
        exact ih

/-- After the removal step the removed key is gone and any other key holds
the original node up to the key-preserving rewrite. -/
theorem SearchTree.remove_get (t : SearchTree) (l : Label) (x : Label)
    (v : SearchTreeNode) (h : (t.remove l).get x = some v) :
    ∃ v0, t.get x = some v0 ∧ v.parentLabel = v0.parentLabel := by
  unfold SearchTree.remove at h
  rcases hget : t.get l with _ | n
  · rw [hget] at h
    exact ⟨v, h, rfl⟩
  · rw [hget] at h
    simp only at h
    by_cases hp : n.isPrunable = true
    · rw [if_pos hp] at h
      by_cases hx : x = l
      · subst hx
        exfalso
        have hnone : ∀ (g : Label × SearchTreeNode →
            Label × SearchTreeNode), (hg : ∀ p, (g p).1 = p.1) →
            (((t.nodes.filter (fun p => ¬ p.1 = x)).map g).find?
              (fun p => p.1 = x)) = none := by
          intro g hg
          rw [List.find?_eq_none]
          intro p hp2
          rcases List.mem_map.mp hp2 with ⟨q, hq, hgq⟩
          rcases List.mem_filter.mp hq with ⟨_, hqx⟩
          rw [← hgq]
          simp only [hg]
          simpa using hqx
        rcases hpar : n.parentLabel with _ | pl
        · rw [hpar] at h
          unfold SearchTree.get at h
          have := hnone id (fun p => rfl)
          rw [List.map_id] at this
          rw [this] at h
          cases h
        · rw [hpar] at h
          unfold SearchTree.get at h
          rw [hnone (fun p => if p.1 = pl then (p.1, p.2.decrementChildCount)
            else p) (fun p => by by_cases hq : p.1 = pl <;> simp [hq])] at h
          cases h
      · rcases hpar : n.parentLabel with _ | pl
        · rw [hpar] at h
          unfold SearchTree.get at h
          have hcore := find?_filter_map_key id (fun p => rfl) l x hx t.nodes
          rw [List.map_id] at hcore
          rw [hcore] at h
          simp only [Option.map_id, id_eq] at h
          unfold SearchTree.get
          exact ⟨v, h, rfl⟩
        · rw [hpar] at h
          unfold SearchTree.get at h
          rw [find?_filter_map_key
            (fun p => if p.1 = pl then (p.1, p.2.decrementChildCount) else p)
            (fun p => by by_cases hq : p.1 = pl <;> simp [hq]) l x hx
            t.nodes] at h
          unfold SearchTree.get
          rcases hfind : t.nodes.find? (fun p => p.1 = x) with _ | q
          · rw [hfind] at h
            cases h
          · rw [hfind] at h
            refine ⟨q.2, by rw [hfind]; rfl, ?_⟩
            by_cases hq : q.1 = pl
            · simp only [Option.map_some', hq, if_pos] at h
              cases h
              exact SearchTreeNode.parentLabel_decrement q.2
            · simp only [Option.map_some', hq, ite_false] at h
              cases h
              rfl
    · rw [if_neg hp] at h
      exact ⟨v, h, rfl⟩

/-- The removal step never resurrects a missing key. -/
theorem SearchTree.remove_get_none (t : SearchTree) (l x : Label)
    (h : t.get x = none) : (t.remove l).get x = none := by
  rcases hres : (t.remove l).get x with _ | v
  · rfl
  · rcases SearchTree.remove_get t l x v hres with ⟨v0, hv0, _⟩
    rw [h] at hv0
    cases hv0

/-- A key other than the removed one stays present. -/
theorem SearchTree.remove_get_none_cases (t : SearchTree) (l x : Label)
    (h : (t.remove l).get x = none) : t.get x = none ∨ x = l := by
  by_cases hx : x = l
  · exact Or.inr hx
  · left
    unfold SearchTree.remove at h
    rcases hget : t.get l with _ | n
    · rw [hget] at h
      exact h
    · rw [hget] at h
      simp only at h
      by_cases hp : n.isPrunable = true
      · rw [if_pos hp] at h
        rcases hpar : n.parentLabel with _ | pl
        · rw [hpar] at h
          unfold SearchTree.get at h
          have hcore := find?_filter_map_key id (fun p => rfl) l x hx t.nodes
          rw [List.map_id] at hcore
          rw [hcore] at h
          simp only [Option.map_id, id_eq] at h
          unfold SearchTree.get
          exact h
        · rw [hpar] at h
          unfold SearchTree.get at h
          rw [find?_filter_map_key
            (fun p => if p.1 = pl then (p.1, p.2.decrementChildCount) else p)
            (fun p => by by_cases hq : p.1 = pl <;> simp [hq]) l x hx
            t.nodes] at h
          unfold SearchTree.get
          rcases hfind : t.nodes.find? (fun p => p.1 = x) with _ | q
          · rw [hfind]
            rfl
          · rw [hfind] at h
            cases h
      · rw [if_neg hp] at h
        exact h

/-- Decrementing a child count subtracts one in the truncated sense. -/
theorem SearchTreeNode.childCount_decrement (n : SearchTreeNode) :
    n.decrementChildCount.childCount = n.childCount - 1 := by
  cases n with
  | root d c =>
    by_cases hc : 0 < c <;>
      simp [SearchTreeNode.decrementChildCount, hc,
        SearchTreeNode.childCount] <;> omega
  | branch e p d c =>
    by_cases hc : 0 < c <;>
      simp [SearchTreeNode.decrementChildCount, hc,
        SearchTreeNode.childCount] <;> omega

/-- With unique keys, dropping the stored pair at one key lowers any count by
exactly that pair contribution. -/
theorem countP_filter_out_key (f : Label × SearchTreeNode → Bool) (l : Label)
    (n : SearchTreeNode) :
    ∀ (nodes : List (Label × SearchTreeNode)),
    (nodes.map Prod.fst).Nodup → (l, n) ∈ nodes →
    (nodes.filter (fun p => ¬ p.1 = l)).countP f
      = nodes.countP f - (if f (l, n) then 1 else 0) := by
  intro nodes
  induction nodes with
  | nil =>
    intro _ hmem
    cases hmem
  | cons a rest ih =>
    intro hnd hmem
    rw [List.map_cons, List.nodup_cons] at hnd
    rcases List.mem_cons.mp hmem with ha | ha
    · have hdrop : (¬ a.1 = l) = False := by
        rw [← ha]
        simp
      rw [List.filter_cons_of_neg (by simp [← ha])]
      have hfrest : rest.filter (fun p => ¬ p.1 = l) = rest := by
        apply List.filter_eq_self.mpr
        intro q hq
        simp only [decide_not, Bool.not_eq_eq_eq_not, Bool.not_true,
          decide_eq_false_iff_not]
        intro hql
        apply hnd.1
        have ha1 : a.1 = l := by rw [← ha]
        rw [ha1, ← hql]
        exact List.mem_map_of_mem Prod.fst hq
      rw [hfrest, List.countP_cons, ← ha]
      omega
    · have hal : ¬ a.1 = l := by
        intro hh
        apply hnd.1
        rw [hh]
        exact List.mem_map_of_mem Prod.fst ha
      rw [List.filter_cons_of_pos (by simpa using hal)]
      rw [List.countP_cons, List.countP_cons, ih hnd.2 ha]
      have hge : (if f (l, n) = true then 1 else 0) ≤ rest.countP f := by
        by_cases hf : f (l, n) = true
        · simp only [hf, if_true]
          rw [Nat.succ_le, List.countP_pos_iff]
          exact ⟨(l, n), ha, hf⟩
        · simp [hf]
      by_cases hf2 : f a = true <;> simp [hf2] <;> omega

/-- The nodes left by the removal step when a prunable stored node is
removed, split on whether it has a parent. -/
theorem SearchTree.remove_nodes_eq (t : SearchTree) (l : Label)
    (n : SearchTreeNode) (hget : t.get l = some n)
    (hp : n.isPrunable = true) :
    (n.parentLabel = none →
      (t.remove l).nodes = t.nodes.filter (fun p => ¬ p.1 = l))
    ∧ (∀ pl, n.parentLabel = some pl →
      (t.remove l).nodes = (t.nodes.filter (fun p => ¬ p.1 = l)).map
        (fun p => if p.1 = pl then (p.1, p.2.decrementChildCount) else p)) := by
  unfold SearchTree.remove
  rw [hget]
  simp only [hp, if_true]
  constructor
  · intro hpar
    rw [hpar]
  · intro pl hpar
    rw [hpar]

/-- The removal step preserves the spec section 4.1 tree invariants. -/
theorem SearchTree.remove_wf (t : SearchTree) (l : Label) (hw : t.Wf) :
    (t.remove l).Wf := by
  obtain ⟨hnd, hcnt, hdang⟩ := hw
  rcases hget : t.get l with _ | n
  · unfold SearchTree.remove
    rw [hget]
    exact ⟨hnd, hcnt, hdang⟩
  · by_cases hp : n.isPrunable = true
    · have hmem_n : (l, n) ∈ t.nodes := SearchTree.get_mem t l n hget
      have hzero : t.nodes.countP
          (fun p => p.2.parentLabel = some l) = 0 := by
        have h1 : n.childCount = t.childrenCount l := hcnt (l, n) hmem_n
        have h2 : n.childCount = 0 := by
          unfold SearchTreeNode.isPrunable at hp
          simpa using hp
        unfold SearchTree.childrenCount at h1
        omega
      have hnoparent : ∀ p ∈ t.nodes, ¬ p.2.parentLabel = some l := by
        intro p hpm
        have := List.countP_eq_zero.mp hzero p hpm
        simpa using this
      rcases hpar : n.parentLabel with _ | pl
      · -- removal of a parentless (root) node: plain filter, no decrement
        have hnodes := (SearchTree.remove_nodes_eq t l n hget hp).1 hpar
        refine ⟨?_, ?_, ?_⟩
        · rw [hnodes]
          exact hnd.sublist ((List.filter_sublist t.nodes).map Prod.fst)
        · intro p2 hp2
          rw [hnodes] at hp2
          have hq := List.mem_of_mem_filter hp2
          have hmain := hcnt p2 hq
          unfold SearchTree.childrenCount at hmain
          unfold SearchTree.childrenCount
          rw [hnodes]
          rw [countP_filter_out_key
            (fun p => p.2.parentLabel = some p2.1) l n t.nodes hnd hmem_n]
          rw [if_neg (by simp [hpar])]
          rw [Nat.sub_zero]
          exact hmain
        · intro p2 hp2 x hx
          rw [hnodes] at hp2
          have hq := List.mem_of_mem_filter hp2
          rcases hdang p2 hq x hx with ⟨w, hw1, hw2⟩
          by_cases hxl : x = l
          · exact absurd (hxl ▸ hx) (hnoparent p2 hq)
          · refine ⟨w, ?_, hw2⟩
            rw [hnodes]
            apply List.mem_filter.mpr
            exact ⟨hw1, by simp [hw2, hxl]⟩
      · -- removal of a branch node: filter, then decrement the parent entry
        have hnodes := (SearchTree.remove_nodes_eq t l n hget hp).2 pl hpar
        have hg1 : ∀ p : Label × SearchTreeNode,
            ((if p.1 = pl then (p.1, p.2.decrementChildCount) else p) :
              Label × SearchTreeNode).1 = p.1 := by
          intro p
          by_cases hq : p.1 = pl <;> simp [hq]
        have hg2 : ∀ p : Label × SearchTreeNode,
            ((if p.1 = pl then (p.1, p.2.decrementChildCount) else p) :
              Label × SearchTreeNode).2.parentLabel = p.2.parentLabel := by
          intro p
          by_cases hq : p.1 = pl <;>
            simp [hq, SearchTreeNode.parentLabel_decrement]
        have hcount : ∀ x : Label,
            ((t.nodes.filter (fun p => ¬ p.1 = l)).map
              (fun p => if p.1 = pl then (p.1, p.2.decrementChildCount)
                else p)).countP (fun p => p.2.parentLabel = some x)
              = t.nodes.countP (fun p => p.2.parentLabel = some x)
                  - (if pl = x then 1 else 0) := by
          intro x
          rw [List.countP_map]
          rw [List.countP_congr (fun p _ => by
            simp only [Function.comp]
            rw [hg2 p])]
          rw [countP_filter_out_key _ l n t.nodes hnd hmem_n]
          by_cases hplx : pl = x
          · rw [if_pos hplx, if_pos (by simp [hpar, hplx])]
          · rw [if_neg hplx, if_neg (by simp [hpar, hplx])]
        refine ⟨?_, ?_, ?_⟩
        · rw [hnodes]
          have hkeys : ((t.nodes.filter (fun p => ¬ p.1 = l)).map
              (fun p => if p.1 = pl then (p.1, p.2.decrementChildCount)
                else p)).map Prod.fst
              = (t.nodes.filter (fun p => ¬ p.1 = l)).map Prod.fst := by
            rw [List.map_map]
            exact List.map_congr_left (fun p _ => hg1 p)
          rw [hkeys]
          exact hnd.sublist ((List.filter_sublist t.nodes).map Prod.fst)
        · intro p2 hp2
          rw [hnodes] at hp2
          rcases List.mem_map.mp hp2 with ⟨q, hqf, hqg⟩
          have hqmem := List.mem_of_mem_filter hqf
          unfold SearchTree.childrenCount
          rw [hnodes, hcount p2.1]
          have hqcnt := hcnt q hqmem
          unfold SearchTree.childrenCount at hqcnt
          have hplmem : 0 < t.nodes.countP
              (fun p => p.2.parentLabel = some pl) := by
            rw [List.countP_pos_iff]
            exact ⟨(l, n), hmem_n, by simp [hpar]⟩
          by_cases hq : q.1 = pl
          · have hp2q : p2 = (q.1, q.2.decrementChildCount) := by
              rw [← hqg]
              rw [if_pos hq]
            rw [hp2q]
            simp only
            rw [SearchTreeNode.childCount_decrement, hqcnt, hq]
            rw [if_pos rfl]
          · have hp2q : p2 = q := by
              rw [← hqg]
              rw [if_neg hq]
            rw [hp2q]
            rw [hqcnt]
            rw [if_neg (fun hh => hq hh.symm)]
            omega
        · intro p2 hp2 x hx
          rw [hnodes] at hp2
          rcases List.mem_map.mp hp2 with ⟨q, hqf, hqg⟩
          have hqmem := List.mem_of_mem_filter hqf
          have hqpar : q.2.parentLabel = some x := by
            rw [← hqg] at hx
            rw [hg2 q] at hx
            exact hx
          rcases hdang q hqmem x hqpar with ⟨w, hw1, hw2⟩
          by_cases hxl : x = l
          · exact absurd (hxl ▸ hqpar) (hnoparent q hqmem)
          · refine ⟨(if w.1 = pl then (w.1, w.2.decrementChildCount) else w),
              ?_, by rw [hg1 w]; exact hw2⟩
            rw [hnodes]
            apply List.mem_map_of_mem
            apply List.mem_filter.mpr
            exact ⟨hw1, by simp [hw2, hxl]⟩
    · unfold SearchTree.remove
      rw [hget]
      simp only [hp, if_false]
      exact ⟨hnd, hcnt, hdang⟩

/-- Invariant carried through the pruning loop: the working tree is
well-formed, shrinks from the starting tree with stable parent pointers,
removed labels have all their children removed, and every removed label was
Pareto-dominated at its collected cost. -/
def PruneInv (tree t2 : SearchTree) (cmp : Label → Label → Ordering)
    (nl : Label) (nc : Cost) : Prop :=
  t2.Wf
  ∧ (∀ c cn2, t2.get c = some cn2 → ∃ cn, tree.get c = some cn ∧
      cn2.parentLabel = cn.parentLabel)
  ∧ (∀ l, (tree.get l).isSome → t2.get l = none →
      ∀ c cn, tree.get c = some cn → cn.parentLabel = some l →
        t2.get c = none)
  ∧ (∀ l node, tree.get l = some node → t2.get l = none →
      testDominates cmp l (nodeCost node) nl nc = true)

/-- One pruning step preserves the loop invariant. -/
theorem pruneStep_inv (tree t2 : SearchTree)
    (cmp : Label → Label → Ordering) (nl : Label) (nc : Cost)
    (e : Label × Cost)
    (hent : ∃ node, tree.get e.1 = some node ∧ e.2 = nodeCost node)
    (hinv : PruneInv tree t2 cmp nl nc) :
    PruneInv tree (pruneStep cmp nl nc t2 e) cmp nl nc := by
  obtain ⟨hwf, hsub, hclosed, hrem⟩ := hinv
  unfold pruneStep
  by_cases hd : testDominates cmp e.1 e.2 nl nc = true
  · rw [if_pos hd]
    by_cases hprun : (((t2.get e.1).map
        (fun n => n.isPrunable)).getD false) = true
    · rw [if_pos hprun]
      rcases hm : t2.get e.1 with _ | m
      · rw [hm] at hprun
        cases hprun
      · rw [hm] at hprun
        simp only [Option.map_some', Option.getD_some] at hprun
        have hmmem : (e.1, m) ∈ t2.nodes := SearchTree.get_mem t2 e.1 m hm
        have hccz : t2.nodes.countP
            (fun p => p.2.parentLabel = some e.1) = 0 := by
          have h1 : m.childCount = t2.childrenCount e.1 :=
            hwf.2.1 (e.1, m) hmmem
          have h2 : m.childCount = 0 := by
            unfold SearchTreeNode.isPrunable at hprun
            simpa using hprun
          unfold SearchTree.childrenCount at h1
          omega
        refine ⟨SearchTree.remove_wf t2 e.1 hwf, ?_, ?_, ?_⟩
        · intro c cn2 hc
          rcases SearchTree.remove_get t2 e.1 c cn2 hc with ⟨v0, hv0, hpeq⟩
          rcases hsub c v0 hv0 with ⟨cn, hcn, hpeq2⟩
          exact ⟨cn, hcn, by rw [hpeq, hpeq2]⟩
        · intro l hl hlnone c cn hc hcp
          by_cases ht2l : t2.get l = none
          · exact SearchTree.remove_get_none t2 e.1 c
              (hclosed l hl ht2l c cn hc hcp)
          · have hle : l = e.1 := by
              rcases SearchTree.remove_get_none_cases t2 e.1 l hlnone
                with hh | hh
              · exact absurd hh ht2l
              · exact hh
            rcases hres : (t2.remove e.1).get c with _ | cn2
            · rfl
            · exfalso
              rcases SearchTree.remove_get t2 e.1 c cn2 hres
                with ⟨v0, hv0, hpeq⟩
              rcases hsub c v0 hv0 with ⟨cn1, hcn1, hpeq2⟩
              have hcn1cn : cn1 = cn := by
                rw [hc] at hcn1
                cases hcn1
                rfl
              have hv0par : v0.parentLabel = some e.1 := by
                rw [hpeq2, hcn1cn, hcp, hle]
              have hpos : 0 < t2.nodes.countP
                  (fun p => p.2.parentLabel = some e.1) := by
                rw [List.countP_pos_iff]
                exact ⟨(c, v0), SearchTree.get_mem t2 c v0 hv0,
                  by simp [hv0par]⟩
              omega
        · intro l node hl hlnone
          by_cases ht2l : t2.get l = none
          · exact hrem l node hl ht2l
          · have hle : l = e.1 := by
              rcases SearchTree.remove_get_none_cases t2 e.1 l hlnone
                with hh | hh
              · exact absurd hh ht2l
              · exact hh
            rcases hent with ⟨node0, hnode0, hcost0⟩
            have hnn : node0 = node := by
              rw [hle] at hl
              rw [hl] at hnode0
              cases hnode0
              rfl
            rw [hle, ← hnn, ← hcost0]
            exact hd
    · rw [if_neg hprun]
      exact ⟨hwf, hsub, hclosed, hrem⟩
  · rw [if_neg hd]
    exact ⟨hwf, hsub, hclosed, hrem⟩

/-- The pruning loop preserves the invariant along the collected entries. -/
theorem foldl_pruneStep_inv (tree : SearchTree)
    (cmp : Label → Label → Ordering) (nl : Label) (nc : Cost) :
    ∀ (entries : List (Label × Cost)) (t2 : SearchTree),
    (∀ e ∈ entries, ∃ node, tree.get e.1 = some node ∧ e.2 = nodeCost node) →
    PruneInv tree t2 cmp nl nc →
    PruneInv tree (entries.foldl (pruneStep cmp nl nc) t2) cmp nl nc := by
  intro entries
  induction entries with
  | nil =>
    intro t2 _ hinv
    exact hinv
  | cons e rest ih =>
    intro t2 hents hinv
    rw [List.foldl_cons]
    exact ih (pruneStep cmp nl nc t2 e)
      (fun x hx => hents x (List.mem_cons_of_mem _ hx))
      (pruneStep_inv tree t2 cmp nl nc e (hents e (by simp)) hinv)

/-- C2: pruning removes a dominated previous label only when its node has no
remaining children, so it never orphans a live branch: starting from a
well-formed tree, the pruned tree is well-formed, every removed label was
dominated and has all of its children removed as well, and every surviving
node still finds its parent in the tree. -/
theorem prune_tree_never_orphans (tree : SearchTree) (nl : Label)
    (tr : EdgeTraversal) (cmp : Label → Label → Ordering)
    (tree2 : SearchTree) (hwf : tree.Wf)
    (hrun : pruneTree tree nl tr cmp = .ok tree2) :
    tree2.Wf
    ∧ (∀ l n, tree.get l = some n → tree2.get l = none →
        testDominates cmp l (nodeCost n) nl tr.cost.objective_cost = true
          ∧ ∀ c cn, tree.get c = some cn → cn.parentLabel = some l →
              tree2.get c = none)
    ∧ (∀ c cn pl, tree2.get c = some cn → cn.parentLabel = some pl →
        (tree2.get pl).isSome) := by
  have hmain : tree2.Wf ∧ PruneInv tree tree2 cmp nl
      tr.cost.objective_cost ∨ tree2 = tree := by
    unfold pruneTree at hrun
    by_cases hnp : nl.doesNotRequirePruning = true
    · rw [if_pos hnp] at hrun
      right
      cases hrun
      rfl
    · rw [if_neg hnp] at hrun
      rcases hc : collectEntries tree (tree.getLabelsAt nl.vertexId)
          with err | entries
      · rw [hc] at hrun
        exact absurd hrun (by simp)
      · rw [hc] at hrun
        left
        have htree2 : tree2 = entries.foldl
            (pruneStep cmp nl tr.cost.objective_cost) tree := by
          cases hrun
          rfl
        subst htree2
        have hinv0 : PruneInv tree tree cmp nl tr.cost.objective_cost := by
          refine ⟨hwf, ?_, ?_, ?_⟩
          · intro c cn2 hc2
            exact ⟨cn2, hc2, rfl⟩
          · intro l hl hlnone
            simp [hlnone] at hl
          · intro l node hl hlnone
            rw [hlnone] at hl
            cases hl
        have hinv := foldl_pruneStep_inv tree cmp nl
          tr.cost.objective_cost entries tree
          (fun e he => collectEntries_mem tree _ entries hc e he) hinv0
        exact ⟨hinv.1, hinv⟩
  have hdang : ∀ (t3 : SearchTree), t3.Wf →
      ∀ c cn pl, t3.get c = some cn → cn.parentLabel = some pl →
        (t3.get pl).isSome := by
    intro t3 hw3 c cn pl hc hcp
    rcases hw3.2.2 (c, cn) (SearchTree.get_mem t3 c cn hc) pl hcp
      with ⟨q, hq1, hq2⟩
    exact (SearchTree.get_isSome_iff t3 pl).mpr ⟨q, hq1, hq2⟩
  rcases hmain with ⟨hwf2, hinv⟩ | heq
  · refine ⟨hwf2, ?_, hdang tree2 hwf2⟩
    intro l n hl hlnone
    exact ⟨hinv.2.2.2 l n hl hlnone,
      fun c cn hc hcp => hinv.2.2.1 l (by simp [hl]) hlnone c cn hc hcp⟩
  · subst heq
    refine ⟨hwf, ?_, hdang tree2 hwf⟩
    intro l n hl hlnone
    rw [hlnone] at hl
    cases hl

/-- Witness for C2: a concrete two-node tree whose dominated branch label is
prunable; pruning removes it and keeps the well-formed shape. -/
theorem prune_tree_never_orphans_witness :
    (SearchTree.mk .forward
      [(.vertex 5, .root .forward 1),
       (.vertexWithIntState 0 10,
         .branch ⟨0, 0, ⟨50, 50⟩, []⟩ (.vertex 5) .forward 0)]).Wf
    ∧ pruneTree (SearchTree.mk .forward
        [(.vertex 5, .root .forward 1),
         (.vertexWithIntState 0 10,
           .branch ⟨0, 0, ⟨50, 50⟩, []⟩ (.vertex 5) .forward 0)])
        (.vertexWithIntState 0 80) ⟨1, 0, ⟨40, 40⟩, []⟩ socCompare
      = .ok (SearchTree.mk .forward [(.vertex 5, .root .forward 0)])
    ∧ (SearchTree.mk .forward [(.vertex 5, .root .forward 0)]).Wf := by
  have h1 : (SearchTree.mk .forward
      [(.vertex 5, .root .forward 1),
       (.vertexWithIntState 0 10,
         .branch ⟨0, 0, ⟨50, 50⟩, []⟩ (.vertex 5) .forward 0)]).Wf := by
    decide
  have h2 : pruneTree (SearchTree.mk .forward
      [(.vertex 5, .root .forward 1),
       (.vertexWithIntState 0 10,
         .branch ⟨0, 0, ⟨50, 50⟩, []⟩ (.vertex 5) .forward 0)])
      (.vertexWithIntState 0 80) ⟨1, 0, ⟨40, 40⟩, []⟩ socCompare
      = .ok (SearchTree.mk .forward [(.vertex 5, .root .forward 0)]) := by
    rfl
  exact ⟨h1, h2, (prune_tree_never_orphans _ _ _ _ _ h1 h2).1⟩

/-- C10: in prune_tree a previous node without a traversal cost (the root)
is compared at the default cost zero, so with label comparison Less it is
dominated only at new cost at most zero and with Equal only strictly below
zero; hence under a strictly positive new objective cost the root label
survives pruning. -/
theorem prune_tree_root_default_cost :
    (∀ (n : SearchTreeNode), n.traversalCost = none →
      ((n.traversalCost.map
        (fun tc : TraversalCost => tc.objective_cost)).getD 0) = 0)
    ∧ (∀ (cmp : Label → Label → Ordering) rl nl (nc : Cost),
        testDominates cmp rl 0 nl nc = true ↔
          ((cmp rl nl = .lt ∧ nc ≤ 0) ∨ (cmp rl nl = .eq ∧ nc < 0)))
    ∧ (∀ (tree : SearchTree) nl tr (cmp : Label → Label → Ordering) tree2 rl
          n,
        tree.get rl = some n → n.traversalCost = none →
        0 < tr.cost.objective_cost →
        pruneTree tree nl tr cmp = .ok tree2 →
        (tree2.get rl).isSome) := by
  refine ⟨?_, ?_, ?_⟩
  · intro n h
    simp [h]
  · intro cmp rl nl nc
    unfold testDominates
    rcases h : cmp rl nl <;> simp [h]
  · intro tree nl tr cmp tree2 rl n hget hcost hpos hprune
    unfold pruneTree at hprune
    by_cases hnp : nl.doesNotRequirePruning = true
    · rw [if_pos hnp] at hprune
      cases hprune
      simp [hget]
    · rw [if_neg hnp] at hprune
      rcases hc : collectEntries tree (tree.getLabelsAt nl.vertexId)
          with err | entries
      · rw [hc] at hprune
        exact absurd hprune (by simp)
      · rw [hc] at hprune
        have htree2 : tree2 = entries.foldl
            (pruneStep cmp nl tr.cost.objective_cost) tree := by
          cases hprune
          rfl
        subst htree2
        refine foldl_pruneStep_keeps_zero_cost cmp nl tr.cost.objective_cost
          hpos rl entries tree ?_ (by simp [hget])
        intro pc hpc
        obtain ⟨node, hnode, hval⟩ :=
          collectEntries_mem tree _ entries hc (rl, pc) hpc
        rw [hget] at hnode
        cases hnode
        simp only at hval
        rw [hval, hcost]
        rfl

/-- Witness for C10: a tree holding the root label at vertex 0 (cost-free
node) and a dominated branch label, pruned with a positive-cost traversal. -/
theorem prune_tree_root_default_cost_witness :
    ((SearchTree.mk .forward
        [(.vertex 0, .root .forward 1),
         (.vertexWithIntState 0 10,
           .branch ⟨0, 0, ⟨50, 50⟩, []⟩ (.vertex 0) .forward 0)]).get
        (.vertex 0) = some (.root .forward 1))
    ∧ ((SearchTreeNode.root .forward 1).traversalCost = none)
    ∧ ((0 : Cost) < (40 : Cost))
    ∧ (((SearchTree.mk .forward
        [(.vertex 0, .root .forward 0)]).get (.vertex 0)).isSome = true) := by
  have hres : pruneTree (SearchTree.mk .forward
      [(.vertex 0, .root .forward 1),
       (.vertexWithIntState 0 10,
         .branch ⟨0, 0, ⟨50, 50⟩, []⟩ (.vertex 0) .forward 0)])
      (.vertexWithIntState 0 80) ⟨1, 0, ⟨40, 40⟩, []⟩ socCompare
      = .ok (SearchTree.mk .forward [(.vertex 0, .root .forward 0)]) := by
    rfl
  exact ⟨by decide, by decide, by norm_num,
    prune_tree_root_default_cost.2.2 _ _ _ _ _ (.vertex 0)
      (.root .forward 1) (by decide) (by decide) (by norm_num) hres⟩

/-- C4: pop_new fails with NoPathExistsBetweenVertices(source, target,
tree.len()) exactly when a target is set and every queue entry is consumed
without being returnable; with no target it never errors and an exhausted
queue yields Ok(None); a popped label at the target vertex yields Ok(None). -/
theorem pop_new_no_path_error_iff :
    (∀ (frontier : List (Label × Cost)) source tv solution initial_state,
      popNew frontier source (some tv) solution initial_state
          = .error (.noPathExistsBetweenVertices source tv solution.len)
        ↔ ∀ e ∈ frontier, e.1.vertexId ≠ tv ∧ solution.get e.1 = none
            ∧ solution.isEmpty = false)
    ∧ (∀ (frontier : List (Label × Cost)) source solution initial_state err,
        popNew frontier source none solution initial_state ≠ .error err)
    ∧ (∀ source solution initial_state,
        popNew [] source none solution initial_state = .ok none)
    ∧ (∀ (l : Label) (c : Cost) rest source tv solution initial_state,
        l.vertexId = tv →
        popNew ((l, c) :: rest) source (some tv) solution initial_state
          = .ok none) := by
  refine ⟨?_, ?_, ?_, ?_⟩
  · intro frontier
    induction frontier with
    | nil =>
      intro source tv solution initial_state
      simp [popNew]
    | cons e rest ih =>
      intro source tv solution initial_state
      obtain ⟨l, c⟩ := e
      rw [popNew]
      by_cases ht : (some tv : Option VertexId) = some l.vertexId
      · rw [if_pos ht]
        constructor
        · intro h
          exact absurd h (by simp)
        · intro h
          exfalso
          have := (h (l, c) (by simp)).1
          exact this (by simpa using ht.symm)
      · rw [if_neg ht]
        by_cases hskip :
            ((solution.get l).isNone && !solution.isEmpty) = true
        · rw [if_pos hskip]
          rw [ih source tv solution initial_state]
          rw [Bool.and_eq_true, Option.isNone_iff_eq_none,
            Bool.not_eq_true'] at hskip
          constructor
          · intro h
            intro e he
            rcases List.mem_cons.mp he with he | he
            · subst he
              refine ⟨?_, hskip.1, hskip.2⟩
              intro hv
              exact ht (by rw [hv])
            · exact h e he
          · intro h e he
            exact h e (List.mem_cons_of_mem _ he)
        · rw [if_neg hskip]
          constructor
          · intro h
            exact absurd h (by simp)
          · intro h
            exfalso
            have h1 := h (l, c) (by simp)
            exact hskip (by simp [h1.2.1, h1.2.2])
  · intro frontier
    induction frontier with
    | nil =>
      intro source solution initial_state err
      simp [popNew]
    | cons e rest ih =>
      intro source solution initial_state err
      obtain ⟨l, c⟩ := e
      rw [popNew]
      rw [if_neg (by simp)]
      by_cases hskip : ((solution.get l).isNone && !solution.isEmpty) = true
      · rw [if_pos hskip]
        exact ih source solution initial_state err
      · rw [if_neg hskip]
        simp
  · intro source solution initial_state
    rfl
  · intro l c rest source tv solution initial_state hv
    rw [popNew]
    rw [if_pos (by rw [hv])]

/-- Witness for C4 at concrete inputs: an exhausted queue with and without a
target, a queue whose entries are all pruned, and a queue whose head sits at
the target vertex. -/
theorem pop_new_no_path_error_iff_witness :
    (popNew [(Label.vertex 2, (5 : Cost))] 0 (some 9)
        (SearchTree.mk .forward [(.vertex 1, .root .forward 0)]) [3]
        = .error (.noPathExistsBetweenVertices 0 9 1))
    ∧ popNew [(Label.vertex 2, (5 : Cost))] 0 none
        (SearchTree.mk .forward [(.vertex 1, .root .forward 0)]) [3]
        ≠ .error (.noPathExistsBetweenVertices 0 9 1)
    ∧ popNew [] 0 none (SearchTree.mk .forward []) [3] = .ok none
    ∧ popNew [(Label.vertex 9, (5 : Cost))] 0 (some 9)
        (SearchTree.mk .forward []) [3] = .ok none := by
  refine ⟨?_, ?_, ?_, ?_⟩
  · exact (pop_new_no_path_error_iff.1 [(Label.vertex 2, 5)] 0 9
      (SearchTree.mk .forward [(.vertex 1, .root .forward 0)]) [3]).mpr
      (by decide)
  · exact pop_new_no_path_error_iff.2.1 [(Label.vertex 2, 5)] 0
      (SearchTree.mk .forward [(.vertex 1, .root .forward 0)]) [3] _
  · exact pop_new_no_path_error_iff.2.2.1 0 (SearchTree.mk .forward []) [3]
  · exact pop_new_no_path_error_iff.2.2.2 (.vertex 9) 5 [] 0 9
      (SearchTree.mk .forward []) [3] rfl

/-- The last element of a nonempty index group, zero on the empty group
(the Rust source only calls last() on nonempty groups). -/
def lastOf : List Nat → Nat
  | [] => 0
  | [a] => a
  | _ :: b :: rest => lastOf (b :: rest)

/-- The first element of a nonempty index group, zero on the empty group. -/
def headOf : List Nat → Nat
  | [] => 0
  | a :: _ => a

@[simp]
theorem lastOf_singleton (a : Nat) : lastOf [a] = a := rfl

@[simp]
theorem lastOf_cons_cons (a b : Nat) (rest : List Nat) :
    lastOf (a :: b :: rest) = lastOf (b :: rest) := rfl

@[simp]
theorem headOf_cons (a : Nat) (rest : List Nat) : headOf (a :: rest) = a :=
  rfl

@[simp]
theorem lastOf_concat (g : List Nat) (p : Nat) : lastOf (g ++ [p]) = p := by
  induction g with
  | nil => rfl
  | cons a rest ih =>
    rcases rest with _ | ⟨b, rest2⟩
    · rfl
    · simpa using ih

/-- The representative of a group of consecutive indices: its middle element
(src: trajectory_segment.rs compress, current_group at index len / 2). -/
def midOf (g : List Nat) : Nat :=
  g.getD (g.length / 2) 0

@[simp]
theorem midOf_singleton (a : Nat) : midOf [a] = a := by
  simp [midOf]

/-- The grouping loop of compress over the sorted tail
(src: trajectory_segment.rs lines 355 to 371): extend the current group while
the next point is the successor of its last element, otherwise flush the
middle of the group and start a new one; the final group is always flushed. -/
def compressGo (group : List Nat) : List Nat → List Nat
  | [] => [midOf group]
  | p :: rest =>
    if p = lastOf group + 1 then compressGo (group ++ [p]) rest
    else midOf group :: compressGo [p] rest

/-- Reduces a list of cutting point indices by grouping consecutive integers
and keeping one representative per group (src: trajectory_segment.rs
compress). The Rust stable slice sort is modelled by insertion sort. -/
def compress (cutting_points : List Nat) : List Nat :=
  match cutting_points.insertionSort (· ≤ ·) with
  | [] => []
  | x :: rest => compressGo [x] rest

/-- Prepend a group to a run decomposition, merging it with the first run
when consecutive. This is the specification-side reading of one compress
step. -/
def glueRun (g : List Nat) (runs : List (List Nat)) : List (List Nat) :=
  match runs with
  | [] => [g]
  | r :: rs => if lastOf g + 1 = headOf r then (g ++ r) :: rs
      else g :: r :: rs

/-- Decomposition of a list into maximal runs of consecutive integers, the
specification-side reading of the compress law. -/
def splitRuns : List Nat → List (List Nat)
  | [] => []
  | x :: xs => glueRun [x] (splitRuns xs)

/-- Gluing twice from the left collapses into one glue of the extended
group. -/
theorem glueRun_glueRun (g : List Nat) (p : Nat)
    (runs : List (List Nat)) :
    glueRun g (glueRun [p] runs)
      = if lastOf g + 1 = p then glueRun (g ++ [p]) runs
        else g :: glueRun [p] runs := by
  rcases runs with _ | ⟨r, rs⟩
  · by_cases hc : lastOf g + 1 = p <;>
      simp [glueRun, hc]
  · by_cases hpr : p + 1 = headOf r <;>
      by_cases hc : lastOf g + 1 = p <;>
        simp [glueRun, hpr, hc]

/-- The compress loop computes the middles of the glued run decomposition. -/
theorem compressGo_eq_splitRuns (rest : List Nat) :
    ∀ (g : List Nat),
    compressGo g rest = (glueRun g (splitRuns rest)).map midOf := by
  induction rest with
  | nil =>
    intro g
    rfl
  | cons p rest2 ih =>
    intro g
    unfold compressGo
    unfold splitRuns
    rw [glueRun_glueRun]
    by_cases hc : p = lastOf g + 1
    · rw [if_pos hc, if_pos hc.symm, ih]
    · rw [if_neg hc, if_neg (fun hh => hc hh.symm)]
      rw [List.map_cons, ih]

/-- Flattening the glued runs recovers the group followed by the rest. -/
theorem glueRun_flatten (g : List Nat) (runs : List (List Nat)) :
    (glueRun g runs).flatten = g ++ runs.flatten := by
  rcases runs with _ | ⟨r, rs⟩
  · simp [glueRun]
  · by_cases hc : lastOf g + 1 = headOf r <;> simp [glueRun, hc]

/-- Run decomposition facts: flattening restores the list, every run is a
nonempty chain of consecutive integers, and adjacent runs do not connect. -/
theorem splitRuns_facts (s : List Nat) :
    (splitRuns s).flatten = s
    ∧ (∀ g ∈ splitRuns s, g ≠ []
        ∧ List.Chain' (fun a b => b = a + 1) g)
    ∧ List.Chain' (fun g h => lastOf g + 1 ≠ headOf h) (splitRuns s) := by
  induction s with
  | nil => exact ⟨rfl, by simp [splitRuns], by simp [splitRuns]⟩
  | cons x xs ih =>
    obtain ⟨ihflat, ihruns, ihbound⟩ := ih
    unfold splitRuns
    rcases hs : splitRuns xs with _ | ⟨r, rs⟩
    · rw [hs] at ihflat
      have hxs : xs = [] := by simpa using ihflat.symm
      subst hxs
      refine ⟨by simp [glueRun], ?_, by simp [glueRun]⟩
      intro g hg
      simp only [glueRun, List.mem_singleton] at hg
      subst hg
      exact ⟨by simp, by simp⟩
    · rw [hs] at ihflat ihruns ihbound
      have ihflat2 : r ++ rs.flatten = xs := by simpa using ihflat
      have hrne : r ≠ [] := (ihruns r (by simp)).1
      by_cases hc2 : x + 1 = headOf r
      · have hglue : glueRun [x] (r :: rs) = (x :: r) :: rs := by
          simp [glueRun, hc2]
        rw [hglue]
        refine ⟨?_, ?_, ?_⟩
        · simp [ihflat2]
        · intro g hg
          rcases List.mem_cons.mp hg with hg | hg
          · subst hg
            refine ⟨by simp, ?_⟩
            rcases hr2 : r with _ | ⟨rh, rt⟩
            · exact absurd hr2 hrne
            · apply List.Chain'.cons
              · rw [hr2] at hc2
                simpa using hc2.symm
              · have := (ihruns r (by simp)).2
                rw [hr2] at this
                exact this
          · exact ihruns g (List.mem_cons_of_mem _ hg)
        · rcases rs with _ | ⟨r2, rs2⟩
          · simp
          · apply List.Chain'.cons
            · have hb := List.chain'_cons.mp ihbound
              have hlast : lastOf (x :: r) = lastOf r := by
                rcases hr2 : r with _ | ⟨rh, rt⟩
                · exact absurd hr2 hrne
                · simp
              rw [hlast]
              exact hb.1
            · exact (List.chain'_cons.mp ihbound).2
      · have hglue : glueRun [x] (r :: rs) = [x] :: r :: rs := by
          simp [glueRun, hc2]
        rw [hglue]
        refine ⟨?_, ?_, ?_⟩
        · simp [ihflat2]
        · intro g hg
          rcases List.mem_cons.mp hg with hg | hg
          · subst hg
            exact ⟨by simp, by simp⟩
          · exact ihruns g hg
        · refine List.Chain'.cons ?_ ihbound
          simpa using hc2

/-- A list in which no element has its successor present splits into
singleton runs. -/
theorem splitRuns_singletons (s : List Nat)
    (h : ∀ a ∈ s, ¬ (a + 1 ∈ s)) :
    splitRuns s = s.map (fun a => [a]) := by
  induction s with
  | nil => rfl
  | cons x xs ih =>
    unfold splitRuns
    have hxs : splitRuns xs = xs.map (fun a => [a]) := by
      apply ih
      intro a ha hsa
      exact h a (List.mem_cons_of_mem _ ha)
        (List.mem_cons_of_mem _ hsa)
    rw [hxs]
    rcases hxs2 : xs with _ | ⟨y, ys⟩
    · rfl
    · unfold glueRun
      simp only [List.map_cons, headOf_cons, lastOf_singleton]
      rw [if_neg]
      intro hxy
      refine h x (by simp) ?_
      rw [hxy, hxs2]
      simp

/-- C6: compress sorts its input, groups maximal runs of consecutive
integers, and emits the middle of each run; runs are nonempty consecutive
chains that flatten back to the sorted list and never connect across run
boundaries; inputs with no adjacent indices pass through as their sorted
selves, and the empty input gives the empty output. -/
theorem compress_spec :
    compress [] = []
    ∧ (∀ l, compress l
        = (splitRuns (l.insertionSort (· ≤ ·))).map midOf)
    ∧ (∀ s, (splitRuns s).flatten = s
        ∧ (∀ g ∈ splitRuns s, g ≠ []
            ∧ List.Chain' (fun a b => b = a + 1) g)
        ∧ List.Chain' (fun g h => lastOf g + 1 ≠ headOf h) (splitRuns s))
    ∧ (∀ l, (∀ a ∈ l, ¬ (a + 1 ∈ l)) →
        compress l = l.insertionSort (· ≤ ·)) := by
  refine ⟨rfl, ?_, splitRuns_facts, ?_⟩
  · intro l
    unfold compress
    rcases hs : l.insertionSort (· ≤ ·) with _ | ⟨x, rest⟩
    · rfl
    · show compressGo [x] rest = (splitRuns (x :: rest)).map midOf
      rw [compressGo_eq_splitRuns]
      rfl
  · intro l hl
    unfold compress
    have hmem : ∀ a, a ∈ l.insertionSort (· ≤ ·) ↔ a ∈ l := by
      intro a
      exact (List.perm_insertionSort (· ≤ ·) l).mem_iff
    have hsorted : ∀ a ∈ l.insertionSort (· ≤ ·),
        ¬ (a + 1 ∈ l.insertionSort (· ≤ ·)) := by
      intro a ha hsa
      exact hl a ((hmem a).mp ha) ((hmem (a + 1)).mp hsa)
    rcases hs : l.insertionSort (· ≤ ·) with _ | ⟨x, rest⟩
    · rfl
    · rw [hs] at hsorted
      show compressGo [x] rest = x :: rest
      rw [compressGo_eq_splitRuns]
      have hrest : splitRuns rest = rest.map (fun a => [a]) := by
        apply splitRuns_singletons
        intro a ha hsa
        exact hsorted a (List.mem_cons_of_mem _ ha)
          (List.mem_cons_of_mem _ hsa)
      rw [hrest]
      have hx : glueRun [x] (rest.map (fun a => [a]))
          = (x :: rest).map (fun a => [a]) := by
        rcases hr : rest with _ | ⟨y, ys⟩
        · rfl
        · unfold glueRun
          simp only [List.map_cons, headOf_cons, lastOf_singleton]
          rw [if_neg]
          intro hxy
          refine hsorted x (by simp) ?_
          rw [hxy, hr]
          simp
      rw [hx]
      have hmids : ∀ (s : List Nat),
          (s.map (fun a => [a])).map midOf = s := by
        intro s
        induction s with
        | nil => rfl
        | cons a rest2 ih2 =>
          simp only [List.map_cons, ih2, midOf_singleton]
      exact hmids (x :: rest)

/-- Witness for C6: the unit-test inputs; the no-adjacent-pair input
[1, 3, 5, 7] passes through, reached by applying the compress law theorem. -/
theorem compress_spec_witness :
    ((∀ a ∈ ([1, 3, 5, 7] : List Nat), ¬ (a + 1 ∈ ([1, 3, 5, 7] : List Nat)))
      ∧ compress [1, 3, 5, 7] = [1, 3, 5, 7])
    ∧ compress [1, 2, 3, 4, 5] = [3]
    ∧ compress [1, 2, 3, 6, 7, 8, 10] = [2, 7, 10] := by
  refine ⟨⟨by decide, ?_⟩, by decide, by decide⟩
  exact compress_spec.2.2.2 [1, 3, 5, 7] (by decide)

/-- A user query as the load balancer sees it: an opaque payload and the
optional weight estimate that get_query_weight_estimate reads from its JSON
(src: compass_app_ops.rs apply_load_balancing_policy). -/
structure Query where
  payload : Nat
  weight : Option ℚ
deriving DecidableEq

/-- min_bin (src: compass_app_ops.rs lines 88 to 96): the index of the first
minimal running total, none on an empty slice (the Rust code errors there);
Rust min_by_key returns the first of equally minimal elements. -/
def minBin : List ℚ → Option Nat
  | [] => none
  | x :: xs =>
    match minBin xs with
    | none => some 0
    | some j => if x ≤ xs.getD j 0 then some 0 else some (j + 1)

/-- One step of the greedy bin packing loop: add the query weight to the
least-loaded bin total and push the query onto that bin
(src: compass_app_ops.rs lines 76 to 84). -/
def lbStep (default : ℚ) (state : List ℚ × List (List Query)) (q : Query) :
    Option (List ℚ × List (List Query)) :=
  match minBin state.1 with
  | none => none
  | some b =>
      let w := q.weight.getD default
      some (state.1.set b (state.1.getD b 0 + w),
        state.2.set b (state.2.getD b [] ++ [q]))

/-- apply_load_balancing_policy (src: compass_app_ops.rs lines 58 to 86):
empty input short-circuits to no batches, otherwise every query is assigned
in order to the currently least-loaded of the parallelism bins. -/
def applyLoadBalancingPolicy (queries : List Query) (parallelism : Nat)
    (default : ℚ) : Option (List (List Query)) :=
  if queries.isEmpty then some []
  else
    (queries.foldlM (lbStep default)
      (List.replicate parallelism 0, List.replicate parallelism [])).map
      Prod.snd

/-- minBin yields nothing exactly on the empty bin list. -/
theorem minBin_eq_none_iff (bins : List ℚ) :
    minBin bins = none ↔ bins = [] := by
  rcases bins with _ | ⟨x, xs⟩
  · simp [minBin]
  · simp only [minBin]
    rcases minBin xs with _ | j
    · simp
    · show (if x ≤ xs.getD j 0 then (some 0 : Option Nat)
        else some (j + 1)) = none ↔ x :: xs = []
      split <;> simp

/-- minBin returns an in-range index holding a minimal running total. -/
theorem minBin_spec (bins : List ℚ) (j : Nat) (h : minBin bins = some j) :
    j < bins.length ∧ ∀ i, i < bins.length →
      bins.getD j 0 ≤ bins.getD i 0 := by
  induction bins generalizing j with
  | nil => cases h
  | cons x xs ih =>
    simp only [minBin] at h
    rcases hm : minBin xs with _ | j0
    · rw [hm] at h
      have hxs : xs = [] := (minBin_eq_none_iff xs).mp hm
      have h2 : (some 0 : Option Nat) = some j := h
      cases h2
      subst hxs
      refine ⟨by simp, ?_⟩
      intro i hi
      rcases i with _ | k
      · simp
      · exact absurd hi (by simp)
    · rw [hm] at h
      have h2 : (if x ≤ xs.getD j0 0 then (some 0 : Option Nat)
          else some (j0 + 1)) = some j := h
      obtain ⟨hj0, hmin⟩ := ih j0 hm
      by_cases hx : x ≤ xs.getD j0 0
      · rw [if_pos hx] at h2
        cases h2
        refine ⟨by simp, ?_⟩
        intro i hi
        rcases i with _ | k
        · simp
        · simp only [List.getD_cons_zero, List.getD_cons_succ]
          exact le_trans hx (hmin k (by simpa using hi))
      · rw [if_neg hx] at h2
        cases h2
        refine ⟨by simpa using hj0, ?_⟩
        intro i hi
        rcases i with _ | k
        · simp only [List.getD_cons_zero, List.getD_cons_succ]
          exact le_of_lt (lt_of_not_le hx)
        · simp only [List.getD_cons_succ]
          exact hmin k (by simpa using hi)

/-- Pushing an element onto one bin permutes the flattened bins by appending
that element. -/
theorem flatten_set_append {α : Type} :
    ∀ (l : List (List α)) (b : Nat) (x : α), b < l.length →
    (l.set b (l.getD b [] ++ [x])).flatten.Perm (l.flatten ++ [x]) := by
  intro l
  induction l with
  | nil =>
    intro b x hb
    cases hb
  | cons h t ih =>
    intro b x hb
    rcases b with _ | b2
    · simp only [List.set_cons_zero, List.getD_cons_zero, List.flatten_cons]
      rw [List.append_assoc, List.append_assoc]
      exact (@List.perm_append_comm _ [x] t.flatten).append_left h
    · simp only [List.set_cons_succ, List.getD_cons_succ, List.flatten_cons]
      rw [List.append_assoc]
      exact (ih b2 x (by simpa using hb)).append_left h

/-- The greedy assignment loop always succeeds on at least one bin, keeps the
number of bins, and distributes exactly the incoming queries. -/
theorem foldlM_lbStep_spec (default : ℚ) :
    ∀ (qs : List Query) (totals : List ℚ) (assigns : List (List Query)),
    totals.length = assigns.length → 1 ≤ totals.length →
    ∃ res, List.foldlM (lbStep default) (totals, assigns) qs = some res
      ∧ res.1.length = totals.length
      ∧ res.2.length = assigns.length
      ∧ res.2.flatten.Perm (assigns.flatten ++ qs) := by
  intro qs
  induction qs with
  | nil =>
    intro totals assigns hlen hpos
    exact ⟨(totals, assigns), rfl, rfl, rfl, by simp⟩
  | cons q qs2 ih =>
    intro totals assigns hlen hpos
    have hne : totals ≠ [] := by
      intro hh
      rw [hh] at hpos
      simp at hpos
    rcases hb : minBin totals with _ | b
    · exact absurd ((minBin_eq_none_iff totals).mp hb) hne
    · have hblt : b < totals.length := (minBin_spec totals b hb).1
      have hstep : lbStep default (totals, assigns) q
          = some (totals.set b (totals.getD b 0 + q.weight.getD default),
            assigns.set b (assigns.getD b [] ++ [q])) := by
        unfold lbStep
        rw [hb]
      obtain ⟨res, hres, h1, h2, h3⟩ := ih
        (totals.set b (totals.getD b 0 + q.weight.getD default))
        (assigns.set b (assigns.getD b [] ++ [q]))
        (by simp [hlen]) (by simpa using hpos)
      refine ⟨res, ?_, by simpa using h1, by simpa using h2, ?_⟩
      · rw [List.foldlM_cons, hstep]
        exact hres
      · have hperm : (assigns.set b
            (assigns.getD b [] ++ [q])).flatten.Perm
            (assigns.flatten ++ [q]) :=
          flatten_set_append assigns b q (hlen ▸ hblt)
        refine h3.trans ?_
        refine (hperm.append_right qs2).trans ?_
        rw [List.append_assoc]
        simp

/-- C7: on a non-empty query list and at least one worker, the load balancer
succeeds and returns exactly parallelism batches whose concatenation is a
permutation of the input; each assignment goes to a first least-loaded bin
as computed by min_bin. -/
theorem apply_load_balancing_policy_spec :
    (∀ (queries : List Query) (parallelism : Nat) (default : ℚ),
      queries ≠ [] → 1 ≤ parallelism →
      ∃ out, applyLoadBalancingPolicy queries parallelism default = some out
        ∧ out.length = parallelism
        ∧ out.flatten.Perm queries)
    ∧ (∀ (bins : List ℚ) j, minBin bins = some j →
        j < bins.length ∧ ∀ i, i < bins.length →
          bins.getD j 0 ≤ bins.getD i 0) := by
  refine ⟨?_, minBin_spec⟩
  intro queries parallelism default hne hpar
  unfold applyLoadBalancingPolicy
  rw [if_neg (by simpa using hne)]
  obtain ⟨res, hres, h1, h2, h3⟩ := foldlM_lbStep_spec default queries
    (List.replicate parallelism 0) (List.replicate parallelism [])
    (by simp) (by simpa using hpar)
  refine ⟨res.2, by rw [hres]; rfl, by simpa using h2, ?_⟩
  refine h3.trans ?_
  have : (List.replicate parallelism ([] : List Query)).flatten = [] := by
    induction parallelism with
    | zero => rfl
    | succ n ihn => simpa using ihn
  rw [this]
  simp

/-- Witness for C7: two queries over two workers; the theorem instance
confirms success, the batch count, and conservation. -/
theorem apply_load_balancing_policy_spec_witness :
    ∃ out, applyLoadBalancingPolicy [⟨0, some 2⟩, ⟨1, none⟩] 2 1 = some out
        ∧ out.length = 2
        ∧ out.flatten.Perm [⟨0, some 2⟩, ⟨1, none⟩] :=
  apply_load_balancing_policy_spec.1 [⟨0, some 2⟩, ⟨1, none⟩] 2 1
    (by decide) (by decide)

/-- The route summary operations (src: summary_op.rs SummaryOp). -/
inductive SummaryOp where
  | sum
  | avg
  | last
  | first
  | min
  | max
deriving DecidableEq

/-- SummaryOp::summarize_route (src: summary_op.rs lines 16 to 54) over the
state variable at one index; out-of-range indexing, a panic in Rust, is
modelled by the zero default. Ties in min and max follow the Rust
iterator adapters: min_by keeps the first minimum, max_by the last
maximum. -/
def SummaryOp.summarizeRoute (op : SummaryOp) (route : List EdgeTraversal)
    (i : Nat) : StateVariable :=
  let vals := route.map (fun e => e.result_state.getD i 0)
  match op with
  | .sum => vals.sum
  | .avg => vals.sum / (route.length : ℚ)
  | .last => (route.getLast?.map
      (fun e => e.result_state.getD i 0)).getD 0
  | .first => (route.head?.map
      (fun e => e.result_state.getD i 0)).getD 0
  | .min => (vals.foldl (fun acc v =>
      match acc with
      | none => some v
      | some a => if v < a then some v else some a) none).getD 0
  | .max => (vals.foldl (fun acc v =>
      match acc with
      | none => some v
      | some a => if v < a then some a else some v) none).getD 0

/-- The per-variable summary op selection of generate_route_output
(src: output_generator.rs lines 65 to 71): the supplied map entry when
present, otherwise Last for accumulator variables and Sum for the rest. -/
def chooseSummaryOp (summary_ops : List (String × SummaryOp))
    (name : String) (is_accumulator : Bool) : SummaryOp :=
  match (summary_ops.find? (fun p => p.1 = name)).map Prod.snd with
  | some op => op
  | none => if is_accumulator then .last else .sum

/-- A JSON scalar as the summary emission needs it. -/
inductive SummaryJson where
  | num (q : ℚ)
  | str (s : String)
  | opv (o : SummaryOp)
deriving DecidableEq

/-- The summary entry object built per state variable
(src: output_generator.rs lines 79 to 83): value, unit and op fields. -/
def summaryEntryJson (value : ℚ) (unit : String) (op : SummaryOp) :
    List (String × SummaryJson) :=
  [("value", .num value), ("unit", .str unit), ("op", .opv op)]

/-- C8 counterexample: in generate_route_output an unsupplied speed-like
variable (edge_speed) never defaults to Avg: the default is Sum when the
variable is not an accumulator and Last when it is. -/
theorem generate_route_output_no_avg_default :
    chooseSummaryOp [] "edge_speed" false = .sum
    ∧ chooseSummaryOp [] "edge_speed" true = .last
    ∧ SummaryOp.sum ≠ SummaryOp.avg ∧ SummaryOp.last ≠ SummaryOp.avg := by
  exact ⟨rfl, rfl, by decide, by decide⟩

/-- C8 as amended: when no summary op is supplied for a state variable,
generate_route_output defaults by the accumulator flag alone, Last for
accumulators and Sum otherwise, and every summary entry is emitted as an
object with exactly the fields value, unit and op. -/
theorem generate_route_output_default_ops :
    (∀ (summary_ops : List (String × SummaryOp)) (name : String)
        (is_accumulator : Bool),
      summary_ops.find? (fun p => p.1 = name) = none →
      chooseSummaryOp summary_ops name is_accumulator
        = if is_accumulator then .last else .sum)
    ∧ (∀ (value : ℚ) (unit : String) (op : SummaryOp),
        (summaryEntryJson value unit op).map Prod.fst
          = ["value", "unit", "op"]) := by
  constructor
  · intro summary_ops name is_accumulator h
    unfold chooseSummaryOp
    rw [h]
    rfl
  · intro value unit op
    rfl

/-- Witness for C8 as amended: with no supplied ops, a non-accumulator
variable defaults to Sum and an accumulator variable to Last. -/
theorem generate_route_output_default_ops_witness :
    chooseSummaryOp [] "edge_distance" false = .sum
    ∧ chooseSummaryOp [] "trip_distance" true = .last
    ∧ (summaryEntryJson 3 "km" .sum).map Prod.fst
        = ["value", "unit", "op"] := by
  refine ⟨?_, ?_, generate_route_output_default_ops.2 3 "km" .sum⟩
  · have := generate_route_output_default_ops.1 [] "edge_distance" false rfl
    simpa using this
  · have := generate_route_output_default_ops.1 [] "trip_distance" true rfl
    simpa using this

/-- A GPS point (x, y); used by the LCSS pipeline only through the distance
oracles. -/
abbrev Point := ℚ × ℚ

/-- A length that may be infinite, modelling the f64 meter distances with
INFINITY markers used by the LCSS code. -/
abbrev Dist := WithTop ℚ

/-- A per-trace-point match (src: map_matching_result.rs PointMatch). -/
structure PointMatch where
  edge_list_id : EdgeListId
  edge_id : EdgeId
  distance_to_edge : Dist
deriving DecidableEq

/-- Map matching errors (src: map_matching_error.rs). -/
inductive MapMatchingError where
  | emptyTrace
  | internalError (msg : String)
  | searchTreeError
  | searchError
deriving DecidableEq

/-- The LCSS configuration record (src: lcss_map_matching.rs
LcssMapMatching); the uom lengths are modelled as rationals. -/
structure LcssConfig where
  distance_epsilon : ℚ
  similarity_cutoff : ℚ
  cutting_threshold : ℚ
  random_cuts : Nat
  distance_threshold : ℚ

/-- Modelled from the spec: the collaborators the LCSS pipeline calls into
but that live outside the verified source slice or behind the search stack:
haversine distances (fallible), point-to-edge distances (infinite on
failure), initial path search per trace (new_path_for_trace), edge endpoint
lookup and gap-filling shortest path for joining, and the spatial index
orientation flag. -/
structure MapOracle where
  hav : Point → Point → Option ℚ
  d2e : EdgeListId × EdgeId → Point → Dist
  pathFor : List Point →
    Except MapMatchingError (List (EdgeListId × EdgeId))
  dstV : EdgeListId × EdgeId → Except MapMatchingError VertexId
  srcV : EdgeListId × EdgeId → Except MapMatchingError VertexId
  gapPath : VertexId → VertexId →
    Except MapMatchingError (List (EdgeListId × EdgeId))
  edgeOriented : Bool

/-- A trajectory segment (src: trajectory_segment.rs TrajectorySegment). -/
structure TrajectorySegment where
  trace : List Point
  path : List (EdgeListId × EdgeId)
  point_matches : List PointMatch
  score : ℚ
  cutting_points : List Nat
deriving DecidableEq

/-- TrajectorySegment::new: empty matches, zero score, no cutting points. -/
def TrajectorySegment.new (trace : List Point)
    (path : List (EdgeListId × EdgeId)) : TrajectorySegment :=
  ⟨trace, path, [], 0, []⟩

/-- One iteration of find_stationary_points (src: lcss_ops.rs lines 231 to
249) at index i over the running (collections, current_index) state; a
haversine error leaves the state untouched, as in the source. -/
def stationaryStep (hav : Point → Point → Option ℚ) (trace : List Point)
    (st : List (List Nat) × List Nat) (i : Nat) :
    List (List Nat) × List Nat :=
  match hav (trace.getD (i - 1) (0, 0)) (trace.getD i (0, 0)) with
  | some dist =>
      if dist < 1 / 1000 then
        if st.2.isEmpty then (st.1, [i - 1, i])
        else (st.1, st.2 ++ [i])
      else if ¬ st.2.isEmpty then (st.1 ++ [st.2], [])
      else st
  | none => st

/-- find_stationary_points (src: lcss_ops.rs lines 227 to 258): group trace
indices whose consecutive haversine distance is below one millimeter. -/
def findStationaryPoints (hav : Point → Point → Option ℚ)
    (trace : List Point) : List (List Nat) :=
  let st := (List.range' 1 (trace.length - 1)).foldl
    (stationaryStep hav trace) ([], [])
  if ¬ st.2.isEmpty then st.1 ++ [st.2] else st.1

/-- Structural facts about the stationary fold state after the first n loop
indices: flushed groups and the current group are nonempty where required,
strictly increasing, and bounded by the next loop index. -/
theorem stationaryFold_facts (hav : Point → Point → Option ℚ)
    (trace : List Point) :
    ∀ (n : Nat),
    (∀ g ∈ ((List.range' 1 n).foldl (stationaryStep hav trace) ([], [])).1,
      g ≠ [] ∧ List.Chain' (· < ·) g ∧ ∀ x ∈ g, x < n + 1)
    ∧ (List.Chain' (· < ·)
        ((List.range' 1 n).foldl (stationaryStep hav trace) ([], [])).2
      ∧ ∀ x ∈ ((List.range' 1 n).foldl (stationaryStep hav trace)
          ([], [])).2, x < n + 1) := by
  intro n
  induction n with
  | zero => exact ⟨by simp, by simp, by simp⟩
  | succ k ih =>
    obtain ⟨ihg, ihc, ihb⟩ := ih
    have hconcat : List.range' 1 (k + 1) = List.range' 1 k ++ [1 + k] := by
      rw [List.range'_concat]
      simp
    rw [hconcat, List.foldl_append, List.foldl_cons, List.foldl_nil]
    set st := (List.range' 1 k).foldl (stationaryStep hav trace) ([], [])
      with hst
    have hmono : ∀ g ∈ st.1, g ≠ [] ∧ List.Chain' (· < ·) g
        ∧ ∀ x ∈ g, x < k + 2 := by
      intro g hg
      obtain ⟨h1, h2, h3⟩ := ihg g hg
      exact ⟨h1, h2, fun x hx => Nat.lt_succ_of_lt (h3 x hx)⟩
    rcases hh : hav (trace.getD (1 + k - 1) (0, 0)) (trace.getD (1 + k) (0, 0))
        with _ | dist
    · simp only [stationaryStep, hh]
      exact ⟨hmono, ihc, fun x hx => Nat.lt_succ_of_lt (ihb x hx)⟩
    · simp only [stationaryStep, hh]
      by_cases hdist : dist < 1 / 1000
      · rw [if_pos hdist]
        by_cases hemp : st.2.isEmpty = true
        · rw [if_pos hemp]
          refine ⟨hmono, ?_, ?_⟩
          · simp only
            refine List.chain'_cons.mpr ⟨?_, by simp⟩
            omega
          · intro x hx
            simp only [List.mem_cons, List.mem_singleton] at hx
            rcases hx with hx | hx | hx
            · omega
            · omega
            · simp at hx
        · rw [if_neg hemp]
          refine ⟨hmono, ?_, ?_⟩
          · simp only
            rw [List.chain'_append]
            refine ⟨ihc, by simp, ?_⟩
            intro x hx y hy
            simp only [List.head?_cons, Option.mem_def, Option.some.injEq]
              at hy
            subst hy
            have hxm : x ∈ st.2 := by
              rcases hlast : st.2.getLast? with _ | z
              · rw [hlast] at hx
                simp at hx
              · rw [hlast] at hx
                simp only [Option.mem_def, Option.some.injEq] at hx
                subst hx
                exact List.mem_of_getLast?_eq_some hlast
            have := ihb x hxm
            omega
          · intro x hx
            rcases List.mem_append.mp hx with hx | hx
            · exact Nat.lt_succ_of_lt (ihb x hx)
            · simp only [List.mem_singleton] at hx
              omega
      · rw [if_neg hdist]
        by_cases hemp : st.2.isEmpty = true
        · rw [if_neg (by simpa using hemp)]
          exact ⟨hmono, ihc, fun x hx => Nat.lt_succ_of_lt (ihb x hx)⟩
        · rw [if_pos (by simpa using hemp)]
          refine ⟨?_, by simp, by simp⟩
          intro g hg
          rcases List.mem_append.mp hg with hg | hg
          · exact hmono g hg
          · simp only [List.mem_singleton] at hg
            subst hg
            refine ⟨by simpa using hemp, ihc, ?_⟩
            intro x hx
            exact Nat.lt_succ_of_lt (ihb x hx)

/-- Every stationary group is nonempty, strictly increasing, and holds only
indices below the trace length. -/
theorem findStationaryPoints_facts (hav : Point → Point → Option ℚ)
    (trace : List Point) (htr : trace ≠ []) :
    ∀ g ∈ findStationaryPoints hav trace,
      g ≠ [] ∧ List.Chain' (· < ·) g ∧ ∀ x ∈ g, x < trace.length := by
  intro g hg
  have hfacts := stationaryFold_facts hav trace (trace.length - 1)
  have hlen : trace.length - 1 + 1 = trace.length := by
    have : 0 < trace.length := List.length_pos.mpr htr
    omega
  rw [hlen] at hfacts
  unfold findStationaryPoints at hg
  simp only at hg
  by_cases hemp : (((List.range' 1 (trace.length - 1)).foldl
      (stationaryStep hav trace) ([], [])).2).isEmpty = true
  · rw [if_neg (by simpa using hemp)] at hg
    exact hfacts.1 g hg
  · rw [if_pos (by simpa using hemp)] at hg
    rcases List.mem_append.mp hg with hg | hg
    · exact hfacts.1 g hg
    · simp only [List.mem_singleton] at hg
      subst hg
      exact ⟨by simpa using hemp, hfacts.2.1, hfacts.2.2⟩

/-- The stationary reduction of the trace (src: lcss_map_matching.rs lines
122 to 129): enumerate the points and keep those whose index is not in the
skip set. -/
def filterSkip (skip : Finset Nat) : Nat → List Point → List Point
  | _, [] => []
  | i, p :: rest =>
    if i ∈ skip then filterSkip skip (i + 1) rest
    else p :: filterSkip skip (i + 1) rest

/-- The length of the reduced trace counts the non-skipped indices. -/
theorem filterSkip_length (skip : Finset Nat) :
    ∀ (l : List Point) (s : Nat),
    (filterSkip skip s l).length
      = (List.range' s l.length).countP (fun j => decide (¬ j ∈ skip)) := by
  intro l
  induction l with
  | nil =>
    intro s
    rfl
  | cons p rest ih =>
    intro s
    rw [List.length_cons, List.range'_succ, List.countP_cons]
    unfold filterSkip
    by_cases hs : s ∈ skip
    · rw [if_pos hs, ih (s + 1)]
      simp [hs]
    · rw [if_neg hs, List.length_cons, ih (s + 1)]
      simp [hs]

/-- The LCSS dynamic programming table (src: trajectory_segment.rs lines 101
to 125): C with rows indexed by trace points and columns by path edges, both
one-based, zero on the borders. -/
def lcssC (sim : Nat → Nat → ℚ) : Nat → Nat → ℚ
  | 0, _ => 0
  | _ + 1, 0 => 0
  | i + 1, j + 1 =>
    max (lcssC sim i j + sim i j)
      (max (lcssC sim (i + 1) j) (lcssC sim i (j + 1)))
termination_by i j => (i, j)

/-- TrajectorySegment::score_and_match (src: trajectory_segment.rs lines 63
to 154). An empty trace is an EmptyTrace error; an empty path scores zero
with an infinite-distance match per point. Otherwise each point is matched
to its nearest path edge (ties keep the earlier edge, as in the source
strict comparison), distances beyond the threshold become infinite, the
score is the LCSS table corner over min(m, n), and a poorly matched endpoint
divides the score by the mean excess ratio, which in the infinite case
drives the f64 score to zero. -/
def scoreAndMatch (lcss : LcssConfig) (o : MapOracle)
    (seg : TrajectorySegment) : Except MapMatchingError TrajectorySegment :=
  let m := seg.trace.length
  let n := seg.path.length
  if m = 0 then .error .emptyTrace
  else if n = 0 then
    .ok { seg with
      score := 0
      point_matches := seg.trace.map (fun _ => ⟨0, 0, ⊤⟩) }
  else
    let dist := fun (j i : Nat) =>
      o.d2e (seg.path.getD j (0, 0)) (seg.trace.getD i (0, 0))
    let matchFor := fun (i : Nat) =>
      let st := (List.range n).foldl
        (fun (acc : Dist × (EdgeListId × EdgeId)) j =>
          let dt := dist j i
          if dt < acc.1 then (dt, seg.path.getD j (0, 0)) else acc)
        (⊤, seg.path.getD 0 (0, 0))
      let min_dist : Dist :=
        if (lcss.distance_threshold : Dist) < st.1 then ⊤ else st.1
      PointMatch.mk st.2.1 st.2.2 min_dist
    let point_matches := (List.range m).map matchFor
    let sim := fun (i j : Nat) =>
      let dt := dist j i
      if dt < (lcss.distance_epsilon : Dist) then
        1 - (dt.untop' 0) / lcss.distance_epsilon
      else 0
    let score0 := lcssC sim m n / ((Nat.min m n : Nat) : ℚ)
    let first_dist := (point_matches.headD ⟨0, 0, ⊤⟩).distance_to_edge
    let last_dist := (point_matches.getLastD ⟨0, 0, ⊤⟩).distance_to_edge
    let score :=
      if (lcss.distance_epsilon : Dist) < first_dist
          ∨ (lcss.distance_epsilon : Dist) < last_dist then
        if first_dist = ⊤ ∨ last_dist = ⊤ then 0
        else score0 /
          ((max ((first_dist.untop' 0) / lcss.distance_epsilon) 1
            + max ((last_dist.untop' 0) / lcss.distance_epsilon) 1) / 2)
      else score0
    .ok { seg with
      score := score
      point_matches := point_matches }

/-- score_and_match preserves trace, path and cutting points, produces one
match per trace point, and succeeds exactly on nonempty traces. -/
theorem scoreAndMatch_facts (lcss : LcssConfig) (o : MapOracle)
    (seg seg2 : TrajectorySegment)
    (h : scoreAndMatch lcss o seg = .ok seg2) :
    seg2.trace = seg.trace ∧ seg2.path = seg.path
    ∧ seg2.cutting_points = seg.cutting_points
    ∧ seg2.point_matches.length = seg.trace.length
    ∧ seg.trace ≠ [] := by
  unfold scoreAndMatch at h
  by_cases hm0 : seg.trace.length = 0
  · rw [if_pos hm0] at h
    cases h
  · rw [if_neg hm0] at h
    have htr : seg.trace ≠ [] := by
      intro hh
      rw [hh] at hm0
      exact hm0 rfl
    by_cases hn : seg.path.length = 0
    · rw [if_pos hn] at h
      cases h
      refine ⟨rfl, rfl, rfl, by simp, htr⟩
    · rw [if_neg hn] at h
      simp only at h
      cases h
      refine ⟨rfl, rfl, rfl, by simp, htr⟩

/-- TrajectorySegment::compute_cutting_points (src: trajectory_segment.rs
lines 171 to 218): the trace midpoint when the path is empty or nothing
matched, otherwise the worst finite match (Rust max_by keeps the last
maximum) plus every index whose finite distance sits within the cutting
threshold of epsilon; the candidates are compressed, deduplicated, filtered
away from the trace ends, and sorted. The Rust usize subtraction n - 2 is
modelled by truncated Nat subtraction, which agrees for traces of length at
least two; for shorter traces no candidate index passes the idx > 1 filter
in either semantics. -/
def computeCuttingPoints (lcss : LcssConfig) (seg : TrajectorySegment) :
    TrajectorySegment :=
  let no_match := seg.point_matches.all
    (fun pm => pm.distance_to_edge = ⊤)
  let cutting_points :=
    if seg.path.isEmpty ∨ no_match = true then [seg.trace.length / 2]
    else
      let finite := seg.point_matches.enum.filter
        (fun p => ¬ p.2.distance_to_edge = ⊤)
      let worst := finite.foldl
        (fun (acc : Option (Nat × PointMatch)) p =>
          match acc with
          | none => some p
          | some a =>
            if p.2.distance_to_edge < a.2.distance_to_edge then some a
            else some p) none
      let base := match worst with
        | none => []
        | some w => [w.1]
      base ++ ((seg.point_matches.enum.filter (fun p =>
        ¬ p.2.distance_to_edge = ⊤
        ∧ abs ((p.2.distance_to_edge.untop' 0) - lcss.distance_epsilon)
            < lcss.cutting_threshold)).map Prod.fst)
  let n := seg.trace.length
  let cps := ((compress cutting_points).dedup.filter
    (fun idx => 1 < idx ∧ idx < n - 2)).insertionSort (· ≤ ·)
  { seg with cutting_points := cps }

/-- compute_cutting_points preserves everything but the cutting points, and
those come out sorted and bounded away from the trace ends. -/
theorem computeCuttingPoints_facts (lcss : LcssConfig)
    (seg : TrajectorySegment) :
    (computeCuttingPoints lcss seg).trace = seg.trace
    ∧ (computeCuttingPoints lcss seg).path = seg.path
    ∧ (computeCuttingPoints lcss seg).point_matches = seg.point_matches
    ∧ List.Pairwise (· ≤ ·) (computeCuttingPoints lcss seg).cutting_points
    ∧ ∀ cp ∈ (computeCuttingPoints lcss seg).cutting_points,
        1 < cp ∧ cp < seg.trace.length - 2 := by
  refine ⟨rfl, rfl, rfl, ?_, ?_⟩
  · exact List.sorted_insertionSort (· ≤ ·) _
  · intro cp hcp
    unfold computeCuttingPoints at hcp
    simp only at hcp
    have hcp2 := (List.perm_insertionSort (· ≤ ·) _).mem_iff.mp hcp
    have hcp3 := List.mem_filter.mp hcp2
    have hpred := hcp3.2
    simp only [decide_eq_true_eq] at hpred
    exact hpred

/-- The slicing loop of TrajectorySegment::split_segment
(src: trajectory_segment.rs lines 241 to 259): slice the trace at each
cutting point as a half-open range from the previous index, skip empty
slices, search a fresh path per kept slice, and close with the tail slice.
Rust slicing panics on a reversed or out-of-range slice; the model
truncates, which agrees on the sorted in-range cutting points the caller
produces. -/
def splitGo (o : MapOracle) (trace : List Point) :
    Nat → List Nat → Except MapMatchingError (List TrajectorySegment)
  | last_idx, [] =>
    let tail_points := trace.drop last_idx
    if tail_points.isEmpty then .ok []
    else
      match o.pathFor tail_points with
      | .error e => .error e
      | .ok path => .ok [TrajectorySegment.new tail_points path]
  | last_idx, cp :: cps =>
    let sub_points := (trace.drop last_idx).take (cp - last_idx)
    if sub_points.isEmpty then splitGo o trace cp cps
    else
      match o.pathFor sub_points with
      | .error e => .error e
      | .ok path =>
        match splitGo o trace cp cps with
        | .error e => .error e
        | .ok rest => .ok (TrajectorySegment.new sub_points path :: rest)

/-- TrajectorySegment::split_segment (src: trajectory_segment.rs lines 233
to 262): a short trace or no cutting points returns the segment unchanged,
otherwise the trace is sliced at the cutting points. -/
def splitSegment (o : MapOracle) (seg : TrajectorySegment) :
    Except MapMatchingError (List TrajectorySegment) :=
  if seg.trace.length < 2 ∨ seg.cutting_points.isEmpty then .ok [seg]
  else splitGo o seg.trace 0 seg.cutting_points

/-- The slices produced by the split loop flatten back to the unsliced
suffix of the trace, and every kept slice is nonempty. -/
theorem splitGo_facts (o : MapOracle) (trace : List Point) :
    ∀ (cps : List Nat) (last_idx : Nat) segs,
    List.Chain' (· ≤ ·) (last_idx :: cps) →
    (∀ cp ∈ cps, cp ≤ trace.length) →
    splitGo o trace last_idx cps = .ok segs →
    ((segs.map (fun s => s.trace)).flatten = trace.drop last_idx
      ∧ ∀ s ∈ segs, s.trace ≠ []) := by
  intro cps
  induction cps with
  | nil =>
    intro last_idx segs hchain hbound hrun
    unfold splitGo at hrun
    by_cases hemp : (trace.drop last_idx).isEmpty = true
    · rw [if_pos hemp] at hrun
      cases hrun
      refine ⟨?_, by simp⟩
      rw [List.isEmpty_iff] at hemp
      rw [hemp]
      rfl
    · rw [if_neg hemp] at hrun
      rcases hp : o.pathFor (trace.drop last_idx) with e | path
      · rw [hp] at hrun
        cases hrun
      · rw [hp] at hrun
        cases hrun
        refine ⟨by simp [TrajectorySegment.new], ?_⟩
        intro s hs
        simp only [List.mem_singleton] at hs
        subst hs
        simpa [TrajectorySegment.new] using hemp
  | cons cp cps2 ih =>
    intro last_idx segs hchain hbound hrun
    unfold splitGo at hrun
    have hle : last_idx ≤ cp := (List.chain'_cons.mp hchain).1
    have hchain2 : List.Chain' (· ≤ ·) (cp :: cps2) :=
      (List.chain'_cons.mp hchain).2
    have hbound2 : ∀ x ∈ cps2, x ≤ trace.length := fun x hx =>
      hbound x (List.mem_cons_of_mem _ hx)
    have hcpb : cp ≤ trace.length := hbound cp (by simp)
    have hdropdrop : trace.drop cp = List.drop (cp - last_idx)
        (trace.drop last_idx) := by
      rw [List.drop_drop]
      congr 1
      omega
    by_cases hemp : ((trace.drop last_idx).take (cp - last_idx)).isEmpty
        = true
    · rw [if_pos hemp] at hrun
      obtain ⟨hflat, hne⟩ := ih cp segs hchain2 hbound2 hrun
      refine ⟨?_, hne⟩
      rw [hflat]
      rw [List.isEmpty_iff] at hemp
      have hsplit : trace.drop last_idx
          = (trace.drop last_idx).take (cp - last_idx)
            ++ List.drop (cp - last_idx) (trace.drop last_idx) :=
        (List.take_append_drop _ _).symm
      rw [hdropdrop]
      conv_rhs => rw [hsplit]
      rw [hemp, List.nil_append]
    · rw [if_neg hemp] at hrun
      rcases hp : o.pathFor ((trace.drop last_idx).take (cp - last_idx))
          with e | path
      · rw [hp] at hrun
        cases hrun
      · rw [hp] at hrun
        rcases hrest : splitGo o trace cp cps2 with e | rest
        · rw [hrest] at hrun
          cases hrun
        · rw [hrest] at hrun
          cases hrun
          obtain ⟨hflat, hne⟩ := ih cp rest hchain2 hbound2 hrest
          constructor
          · simp only [List.map_cons, List.flatten_cons,
              TrajectorySegment.new]
            rw [hflat, hdropdrop, List.take_append_drop]
          · intro s hs
            rcases List.mem_cons.mp hs with hs | hs
            · subst hs
              simpa [TrajectorySegment.new] using hemp
            · exact hne s hs

/-- split_segment distributes the trace onto nonempty sub-segments. -/
theorem splitSegment_facts (o : MapOracle) (seg : TrajectorySegment)
    (segs : List TrajectorySegment)
    (htr : seg.trace ≠ [])
    (hsort : List.Pairwise (· ≤ ·) seg.cutting_points)
    (hbound : ∀ cp ∈ seg.cutting_points, cp ≤ seg.trace.length)
    (hrun : splitSegment o seg = .ok segs) :
    (segs.map (fun s => s.trace)).flatten = seg.trace
    ∧ ∀ s ∈ segs, s.trace ≠ [] := by
  unfold splitSegment at hrun
  by_cases hshort : seg.trace.length < 2 ∨ seg.cutting_points.isEmpty = true
  · rw [if_pos hshort] at hrun
    cases hrun
    refine ⟨by simp, ?_⟩
    intro s hs
    simp only [List.mem_singleton] at hs
    subst hs
    exact htr
  · rw [if_neg hshort] at hrun
    have hchain : List.Chain' (· ≤ ·) (0 :: seg.cutting_points) := by
      refine List.chain'_cons'.mpr ⟨?_, hsort.chain'⟩
      intro y hy
      exact Nat.zero_le _
    have := splitGo_facts o seg.trace seg.cutting_points 0 segs hchain
      hbound hrun
    simpa using this

/-- Vec::dedup (used on the joined path in join_segments): drop an element
equal to its immediate predecessor. -/
def dedupConsecutive : List (EdgeListId × EdgeId) →
    List (EdgeListId × EdgeId)
  | [] => []
  | [a] => [a]
  | a :: b :: rest =>
    if a = b then dedupConsecutive (b :: rest)
    else a :: dedupConsecutive (b :: rest)

/-- The gap-filling step of join_segments (src: trajectory_segment.rs lines
299 to 324): no gap when either adjacent path is empty or the boundary edges
coincide; otherwise compare the previous path's destination vertex with the
next path's source vertex and bridge with a shortest path when they
differ. -/
def gapFor (o : MapOracle) (prev_path curr_path :
    List (EdgeListId × EdgeId)) :
    Except MapMatchingError (List (EdgeListId × EdgeId)) :=
  if prev_path.isEmpty ∨ curr_path.isEmpty then .ok []
  else
    let prev_end := prev_path.getLastD (0, 0)
    let curr_start := curr_path.headD (0, 0)
    if prev_end = curr_start then .ok []
    else
      match o.dstV prev_end with
      | .error e => .error e
      | .ok prev_dst_v =>
        match o.srcV curr_start with
        | .error e => .error e
        | .ok curr_src_v =>
          if prev_dst_v = curr_src_v then .ok []
          else o.gapPath prev_dst_v curr_src_v

/-- The accumulation loop of join_segments (src: trajectory_segment.rs lines
295 to 325): concatenate the traces in order and stitch the paths, inserting
a gap path before each segment after the first. -/
def joinGo (o : MapOracle) (prev_path : List (EdgeListId × EdgeId)) :
    List TrajectorySegment →
    Except MapMatchingError (List Point × List (EdgeListId × EdgeId))
  | [] => .ok ([], [])
  | s :: rest =>
    match gapFor o prev_path s.path with
    | .error e => .error e
    | .ok gap =>
      match joinGo o s.path rest with
      | .error e => .error e
      | .ok pr => .ok (s.trace ++ pr.1, gap ++ s.path ++ pr.2)

/-- The points accumulated by the join loop are exactly the concatenation of
the segment traces. -/
theorem joinGo_points (o : MapOracle) :
    ∀ (segs : List TrajectorySegment)
      (prev_path : List (EdgeListId × EdgeId)) pr,
    joinGo o prev_path segs = .ok pr →
    pr.1 = (segs.map (fun s => s.trace)).flatten := by
  intro segs
  induction segs with
  | nil =>
    intro prev_path pr h
    cases h
    rfl
  | cons s rest ih =>
    intro prev_path pr h
    unfold joinGo at h
    rcases hg : gapFor o prev_path s.path with e | gap
    · rw [hg] at h
      cases h
    · rw [hg] at h
      rcases hr : joinGo o s.path rest with e | pr2
      · rw [hr] at h
        cases h
      · rw [hr] at h
        cases h
        simp only [List.map_cons, List.flatten_cons]
        rw [ih s.path pr2 hr]

/-- join_segments (src: trajectory_segment.rs lines 283 to 335): an empty
list is an internal error; otherwise the traces are concatenated and the
paths stitched with gap fills, consecutive duplicate edges are dropped, and
the joined segment is re-scored and re-matched. -/
def joinSegments (lcss : LcssConfig) (o : MapOracle)
    (segments : List TrajectorySegment) :
    Except MapMatchingError TrajectorySegment :=
  if segments.isEmpty then
    .error (.internalError "empty segments to join")
  else
    match joinGo o [] segments with
    | .error e => .error e
    | .ok pr =>
      scoreAndMatch lcss o
        (TrajectorySegment.new pr.1 (dedupConsecutive pr.2))

/-- A successfully joined segment carries the concatenation of the input
traces and one match per point of it. -/
theorem joinSegments_facts (lcss : LcssConfig) (o : MapOracle)
    (segments : List TrajectorySegment) (joined : TrajectorySegment)
    (h : joinSegments lcss o segments = .ok joined) :
    joined.trace = (segments.map (fun s => s.trace)).flatten
    ∧ joined.point_matches.length = joined.trace.length := by
  unfold joinSegments at h
  by_cases hemp : segments.isEmpty = true
  · rw [if_pos hemp] at h
    cases h
  · rw [if_neg hemp] at h
    rcases hj : joinGo o [] segments with e | pr
    · rw [hj] at h
      cases h
    · rw [hj] at h
      have hpts := joinGo_points o segments [] pr hj
      have hsm := scoreAndMatch_facts lcss o
        (TrajectorySegment.new pr.1 (dedupConsecutive pr.2)) joined h
      obtain ⟨htr, _, _, hlen, _⟩ := hsm
      refine ⟨?_, ?_⟩
      · rw [htr, ← hpts]
        rfl
      · rw [hlen, htr]

/-- The per-segment body of the match_trace refinement loop (src:
lcss_map_matching.rs lines 144 to 165): re-score and re-cut the segment; a
segment at or above the similarity cutoff is kept; otherwise it is split,
and a split into several parts is adopted (marking the scheme changed)
exactly when the re-joined split scores strictly better than the segment. -/
def lcssIterSeg (lcss : LcssConfig) (o : MapOracle)
    (segment : TrajectorySegment) :
    Except MapMatchingError (List TrajectorySegment × Bool) :=
  match scoreAndMatch lcss o segment with
  | .error e => .error e
  | .ok s1 =>
    let s2 := computeCuttingPoints lcss s1
    if lcss.similarity_cutoff ≤ s2.score then .ok ([s2], false)
    else
      match splitSegment o s2 with
      | .error e => .error e
      | .ok new_split =>
        if 1 < new_split.length then
          match joinSegments lcss o new_split with
          | .error e => .error e
          | .ok joined =>
            if s2.score < joined.score then .ok (new_split, true)
            else .ok ([s2], false)
        else .ok ([s2], false)

/-- One full pass of the refinement loop over the scheme (src:
lcss_map_matching.rs lines 140 to 166), collecting the produced segments in
order and whether any segment adopted a split. -/
def lcssPass (lcss : LcssConfig) (o : MapOracle) :
    List TrajectorySegment →
    Except MapMatchingError (List TrajectorySegment × Bool)
  | [] => .ok ([], false)
  | s :: rest =>
    match lcssIterSeg lcss o s with
    | .error e => .error e
    | .ok hd =>
      match lcssPass lcss o rest with
      | .error e => .error e
      | .ok tl => .ok (hd.1 ++ tl.1, hd.2 || tl.2)

/-- The bounded refinement loop (src: lcss_map_matching.rs lines 140 to
171): at most ten passes; a pass that changes nothing ends the loop with the
scheme it started from, as in the source where the break precedes the
reassignment. -/
def lcssLoop (lcss : LcssConfig) (o : MapOracle) :
    Nat → List TrajectorySegment →
    Except MapMatchingError (List TrajectorySegment)
  | 0, scheme => .ok scheme
  | fuel + 1, scheme =>
    match lcssPass lcss o scheme with
    | .error e => .error e
    | .ok pr =>
      if pr.2 then lcssLoop lcss o fuel pr.1 else .ok scheme

/-- The segments a refinement step produces concatenate back to the
segment's own trace, and each produced trace is nonempty. -/
theorem lcssIterSeg_facts (lcss : LcssConfig) (o : MapOracle)
    (segment : TrajectorySegment)
    (out : List TrajectorySegment × Bool)
    (h : lcssIterSeg lcss o segment = .ok out) :
    ((out.1.map (fun s => s.trace)).flatten = segment.trace
      ∧ ∀ s ∈ out.1, s.trace ≠ []) := by
  unfold lcssIterSeg at h
  rcases hsm : scoreAndMatch lcss o segment with e | s1
  · rw [hsm] at h
    cases h
  · rw [hsm] at h
    simp only at h
    obtain ⟨htr1, _, _, _, htrne⟩ := scoreAndMatch_facts lcss o segment s1 hsm
    have hcc := computeCuttingPoints_facts lcss s1
    obtain ⟨htr2, _, _, hsort, hbnd⟩ := hcc
    have hs2tr : (computeCuttingPoints lcss s1).trace = segment.trace := by
      rw [htr2, htr1]
    have hs2ne : (computeCuttingPoints lcss s1).trace ≠ [] := by
      rw [hs2tr, ← htr1]
      rw [htr1]
      exact htrne
    have hkeep : ((([computeCuttingPoints lcss s1].map
        (fun s => s.trace)).flatten = segment.trace)
        ∧ ∀ s ∈ [computeCuttingPoints lcss s1], s.trace ≠ []) := by
      refine ⟨by simpa using hs2tr, ?_⟩
      intro s hs
      simp only [List.mem_singleton] at hs
      subst hs
      exact hs2ne
    by_cases hcut : lcss.similarity_cutoff ≤ (computeCuttingPoints lcss s1).score
    · rw [if_pos hcut] at h
      cases h
      exact hkeep
    · rw [if_neg hcut] at h
      rcases hsp : splitSegment o (computeCuttingPoints lcss s1)
          with e | new_split
      · rw [hsp] at h
        cases h
      · rw [hsp] at h
        simp only at h
        have hsplit := splitSegment_facts o (computeCuttingPoints lcss s1)
          new_split hs2ne hsort
          (by
            intro cp hcp
            have := hbnd cp hcp
            have h2 : (computeCuttingPoints lcss s1).trace.length
                = s1.trace.length := by rw [htr2]
            omega)
          hsp
        by_cases hlen : 1 < new_split.length
        · rw [if_pos hlen] at h
          rcases hjn : joinSegments lcss o new_split with e | joined
          · rw [hjn] at h
            cases h
          · rw [hjn] at h
            simp only at h
            by_cases hbetter : (computeCuttingPoints lcss s1).score
                < joined.score
            · rw [if_pos hbetter] at h
              cases h
              exact ⟨by rw [hsplit.1, hs2tr], hsplit.2⟩
            · rw [if_neg hbetter] at h
              cases h
              exact hkeep
        · rw [if_neg hlen] at h
          cases h
          exact hkeep

/-- A full pass preserves the concatenation of the scheme's traces and
produces only nonempty traces. -/
theorem lcssPass_facts (lcss : LcssConfig) (o : MapOracle) :
    ∀ (scheme : List TrajectorySegment)
      (out : List TrajectorySegment × Bool),
    lcssPass lcss o scheme = .ok out →
    ((out.1.map (fun s => s.trace)).flatten
        = (scheme.map (fun s => s.trace)).flatten
      ∧ ∀ s ∈ out.1, s.trace ≠ []) := by
  intro scheme
  induction scheme with
  | nil =>
    intro out h
    cases h
    exact ⟨rfl, by simp⟩
  | cons s rest ih =>
    intro out h
    unfold lcssPass at h
    rcases hhd : lcssIterSeg lcss o s with e | hd
    · rw [hhd] at h
      cases h
    · rw [hhd] at h
      rcases htl : lcssPass lcss o rest with e | tl
      · rw [htl] at h
        cases h
      · rw [htl] at h
        cases h
        obtain ⟨hf1, hn1⟩ := lcssIterSeg_facts lcss o s hd hhd
        obtain ⟨hf2, hn2⟩ := ih tl htl
        constructor
        · simp only [List.map_append, List.flatten_append, List.map_cons,
            List.flatten_cons]
          rw [hf1, hf2]
        · intro x hx
          rcases List.mem_append.mp hx with hx | hx
          · exact hn1 x hx
          · exact hn2 x hx

/-- The refinement loop preserves the concatenation of the scheme's
traces. -/
theorem lcssLoop_facts (lcss : LcssConfig) (o : MapOracle) :
    ∀ (fuel : Nat) (scheme out : List TrajectorySegment),
    lcssLoop lcss o fuel scheme = .ok out →
    (out.map (fun s => s.trace)).flatten
      = (scheme.map (fun s => s.trace)).flatten := by
  intro fuel
  induction fuel with
  | zero =>
    intro scheme out h
    cases h
    rfl
  | succ k ih =>
    intro scheme out h
    unfold lcssLoop at h
    rcases hp : lcssPass lcss o scheme with e | pr
    · rw [hp] at h
      cases h
    · rw [hp] at h
      simp only at h
      by_cases hch : pr.2 = true
      · rw [if_pos hch] at h
        have := ih pr.1 out h
        rw [this, (lcssPass_facts lcss o scheme pr hp).1]
      · rw [if_neg hch] at h
        cases h
        rfl

/-- One step of the re-expansion loop of add_matches_for_stationary_points
(src: lcss_ops.rs lines 285 to 295) over the running (final_matches,
sub_trace_idx) state: at a skipped index duplicate the last match if any; at
a kept index consume the next reduced match while some remain. -/
def addMatchStep (point_matches : List PointMatch) (skip : Finset Nat)
    (st : List PointMatch × Nat) (i : Nat) : List PointMatch × Nat :=
  if i ∈ skip then
    match st.1.getLast? with
    | some lastm => (st.1 ++ [lastm], st.2)
    | none => st
  else if st.2 < point_matches.length then
    (st.1 ++ [point_matches.getD st.2 ⟨0, 0, ⊤⟩], st.2 + 1)
  else st

/-- The skip set of a list of stationary groups: every index of a group
except the leading one (the HashSet built in lcss_map_matching.rs lines 118
to 121 and again in lcss_ops.rs lines 279 to 284). -/
def skipSetOf (stationary_indices : List (List Nat)) : Finset Nat :=
  ((stationary_indices.map (fun (g : List Nat) => g.tail)).flatten).toFinset

/-- add_matches_for_stationary_points (src: lcss_ops.rs lines 268 to 298):
sort the stationary groups by first index (a stable sort, modelled by
insertion sort), collect every non-leading index of each group into the skip
set, and walk the original index range, duplicating the previous match at
skipped indices and consuming the reduced matches elsewhere. -/
def addMatchesForStationaryPoints (point_matches : List PointMatch)
    (stationary_indices : List (List Nat)) : List PointMatch :=
  let sorted := stationary_indices.insertionSort
    (fun (a b : List Nat) => a.headD 0 ≤ b.headD 0)
  ((List.range (point_matches.length + (skipSetOf sorted).card)).foldl
    (addMatchStep point_matches (skipSetOf sorted))
    ([], 0)).1

/-- Counting the members of a finite set among 0..L counts the members
below L. -/
theorem countP_mem_range_card (s : Finset Nat) :
    ∀ L, (List.range L).countP (fun j => decide (j ∈ s))
      = (s.filter (fun x => x < L)).card := by
  intro L
  induction L with
  | zero =>
    rw [List.range_zero, List.countP_nil]
    symm
    rw [Finset.card_eq_zero, Finset.filter_eq_empty_iff]
    intro x hx
    omega
  | succ k ih =>
    rw [List.range_succ, List.countP_append, ih]
    have hone : List.countP (fun j => decide (j ∈ s)) [k]
        = if k ∈ s then 1 else 0 := by
      by_cases hk : k ∈ s
      · simp [List.countP_cons, hk]
      · simp [List.countP_cons, hk]
    rw [hone]
    have hsplit : s.filter (fun x => x < k + 1)
        = s.filter (fun x => x < k) ∪ s.filter (fun x => x = k) := by
      ext x
      simp only [Finset.mem_filter, Finset.mem_union]
      constructor
      · rintro ⟨hx, hlt⟩
        rcases Nat.lt_succ_iff_lt_or_eq.mp hlt with h | h
        · exact Or.inl ⟨hx, h⟩
        · exact Or.inr ⟨hx, h⟩
      · rintro (⟨hx, h⟩ | ⟨hx, h⟩)
        · exact ⟨hx, Nat.lt_succ_of_lt h⟩
        · exact ⟨hx, by omega⟩
    rw [hsplit, Finset.card_union_of_disjoint]
    · rw [Finset.filter_eq']
      by_cases hk : k ∈ s
      · simp [hk]
      · simp [hk]
    · refine Finset.disjoint_left.mpr ?_
      intro a ha hb
      simp only [Finset.mem_filter] at ha hb
      omega

/-- Membership and non-membership counts over 0..L sum to L. -/
theorem countP_range_split (s : Finset Nat) :
    ∀ L, (List.range L).countP (fun j => decide (j ∈ s))
      + (List.range L).countP (fun j => decide (¬ j ∈ s)) = L := by
  intro L
  induction L with
  | zero => rfl
  | succ k ih =>
    rw [List.range_succ, List.countP_append, List.countP_append]
    by_cases hk : k ∈ s
    · simp [List.countP_cons, hk] at ih ⊢
      omega
    · simp [List.countP_cons, hk] at ih ⊢
      omega

/-- When every member of the set lies below L, the non-members of 0..L
number L minus the set's size. -/
theorem countP_not_mem_range (s : Finset Nat) (L : Nat)
    (h : ∀ x ∈ s, x < L) :
    (List.range L).countP (fun j => decide (¬ j ∈ s)) = L - s.card := by
  have h1 := countP_range_split s L
  have h2 := countP_mem_range_card s L
  rw [Finset.filter_true_of_mem h] at h2
  omega

/-- Invariant of the re-expansion fold: after the first k indices the built
list has exactly k matches, the consumption index counts the non-skipped
indices seen so far, and the list is nonempty as soon as one index was
processed. Requires every skipped index to be positive (so a duplicate
always has a predecessor) and below the original length. -/
theorem addMatchStep_fold (point_matches : List PointMatch)
    (skip : Finset Nat)
    (h1 : ∀ x ∈ skip, 1 ≤ x ∧ x < point_matches.length + skip.card) :
    ∀ k, k ≤ point_matches.length + skip.card →
    ((((List.range k).foldl (addMatchStep point_matches skip)
        ([], 0)).1.length = k)
    ∧ ((List.range k).foldl (addMatchStep point_matches skip) ([], 0)).2
        = (List.range k).countP (fun j => decide (¬ j ∈ skip))
    ∧ (1 ≤ k → ((List.range k).foldl (addMatchStep point_matches skip)
        ([], 0)).1 ≠ [])) := by
  intro k
  induction k with
  | zero =>
    intro _
    exact ⟨rfl, rfl, by omega⟩
  | succ n ih =>
    intro hk
    obtain ⟨ihl, ihs, ihne⟩ := ih (by omega)
    rw [List.range_succ, List.foldl_append, List.foldl_cons, List.foldl_nil]
    set st := (List.range n).foldl (addMatchStep point_matches skip) ([], 0)
      with hst
    by_cases hn : n ∈ skip
    · have hne : st.1 ≠ [] := ihne (h1 n hn).1
      rcases hlast : st.1.getLast? with _ | lm
      · exact absurd (List.getLast?_eq_none_iff.mp hlast) hne
      · simp only [addMatchStep, if_pos hn, hlast]
        refine ⟨by simp [ihl], ?_, by simp⟩
        rw [List.countP_append, ← ihs]
        simp [List.countP_cons, hn]
    · have hsub : st.2 < point_matches.length := by
        have hmono : (List.range (n + 1)).countP
            (fun j => decide (¬ j ∈ skip))
            ≤ (List.range (point_matches.length + skip.card)).countP
                (fun j => decide (¬ j ∈ skip)) :=
          ((List.range_sublist).mpr hk).countP_le _
        have htot : (List.range (point_matches.length + skip.card)).countP
            (fun j => decide (¬ j ∈ skip))
            = point_matches.length + skip.card - skip.card :=
          countP_not_mem_range skip _ (fun x hx => (h1 x hx).2)
        rw [List.range_succ, List.countP_append, ← ihs] at hmono
        simp [List.countP_cons, hn] at hmono htot
        omega
      simp only [addMatchStep, if_neg hn, if_pos hsub]
      refine ⟨by simp [ihl], ?_, by simp⟩
      rw [List.countP_append, ← ihs]
      simp [List.countP_cons, hn]

/-- The re-expanded match list restores one entry per original trace index:
its length is the reduced length plus the number of skipped indices. -/
theorem addMatchesForStationaryPoints_length
    (point_matches : List PointMatch)
    (stationary_indices : List (List Nat))
    (hsk : ∀ x ∈ skipSetOf stationary_indices,
      1 ≤ x ∧ x < point_matches.length
        + (skipSetOf stationary_indices).card) :
    (addMatchesForStationaryPoints point_matches stationary_indices).length
      = point_matches.length + (skipSetOf stationary_indices).card := by
  have hperm : List.Perm (stationary_indices.insertionSort
      (fun (a b : List Nat) => a.headD 0 ≤ b.headD 0)) stationary_indices :=
    List.perm_insertionSort _ _
  have hset : skipSetOf (stationary_indices.insertionSort
      (fun (a b : List Nat) => a.headD 0 ≤ b.headD 0))
      = skipSetOf stationary_indices := by
    ext x
    unfold skipSetOf
    simp only [List.mem_toFinset, List.mem_flatten, List.mem_map]
    constructor
    · rintro ⟨t, ⟨g, hg, rfl⟩, hx⟩
      exact ⟨g.tail, ⟨g, hperm.mem_iff.mp hg, rfl⟩, hx⟩
    · rintro ⟨t, ⟨g, hg, rfl⟩, hx⟩
      exact ⟨g.tail, ⟨g, hperm.mem_iff.mpr hg, rfl⟩, hx⟩
  unfold addMatchesForStationaryPoints
  simp only [hset]
  exact (addMatchStep_fold point_matches _ hsk _ le_rfl).1

/-- LcssMapMatching::match_trace (src: lcss_map_matching.rs lines 100 to
178): reject an empty trace and a non-edge-oriented spatial index; drop the
non-leading index of every stationary group from the trace; search an
initial path, score and cut the reduced segment, split it, refine the
scheme for at most ten passes, join the surviving scheme, and re-expand the
matches over the stationary indices. -/
def matchTrace (lcss : LcssConfig) (o : MapOracle) (trace : List Point) :
    Except MapMatchingError
      (List PointMatch × List (EdgeListId × EdgeId)) :=
  if trace.isEmpty then .error .emptyTrace
  else if o.edgeOriented = false then
    .error (.internalError
      "LCSS map matching requires an edge-oriented spatial index.")
  else
    match o.pathFor (filterSkip
        (skipSetOf (findStationaryPoints o.hav trace)) 0 trace) with
    | .error e => .error e
    | .ok initial_path =>
      match scoreAndMatch lcss o (TrajectorySegment.new
          (filterSkip (skipSetOf (findStationaryPoints o.hav trace)) 0 trace)
          initial_path) with
      | .error e => .error e
      | .ok s1 =>
        match splitSegment o (computeCuttingPoints lcss s1) with
        | .error e => .error e
        | .ok scheme0 =>
          match lcssLoop lcss o 10 scheme0 with
          | .error e => .error e
          | .ok scheme =>
            match joinSegments lcss o scheme with
            | .error e => .error e
            | .ok final_segment =>
              .ok (addMatchesForStationaryPoints
                    final_segment.point_matches
                    (findStationaryPoints o.hav trace),
                  final_segment.path)

/-- Every index in the skip set of the trace's stationary groups is positive
and below the trace length. -/
theorem skipSetOf_bounds (hav : Point → Point → Option ℚ)
    (trace : List Point) (htr : trace ≠ []) :
    ∀ x ∈ skipSetOf (findStationaryPoints hav trace),
      1 ≤ x ∧ x < trace.length := by
  intro x hx
  unfold skipSetOf at hx
  simp only [List.mem_toFinset, List.mem_flatten, List.mem_map] at hx
  obtain ⟨t, ⟨g, hg, rfl⟩, hx⟩ := hx
  obtain ⟨hne, hchain, hbnd⟩ := findStationaryPoints_facts hav trace htr g hg
  constructor
  · rcases g with _ | ⟨a, t2⟩
    · exact absurd rfl hne
    · have hpw : List.Pairwise (· < ·) (a :: t2) :=
        List.chain'_iff_pairwise.mp hchain
      have := (List.pairwise_cons.mp hpw).1 x hx
      omega
  · exact hbnd x (List.mem_of_mem_tail hx)

/-- C5: a trace accepted by match_trace comes back with exactly one point
match per input point; the pipeline matches the stationary-reduced trace,
every stage preserves its total point count, and
add_matches_for_stationary_points re-inserts one copy of the preceding
match at each skipped stationary index. -/
theorem match_trace_point_count (lcss : LcssConfig) (o : MapOracle)
    (trace : List Point)
    (res : List PointMatch × List (EdgeListId × EdgeId))
    (h : matchTrace lcss o trace = .ok res) :
    res.1.length = trace.length := by
  unfold matchTrace at h
  by_cases htr : trace.isEmpty = true
  · rw [if_pos htr] at h
    cases h
  · rw [if_neg htr] at h
    have htrne : trace ≠ [] := by
      intro hh
      rw [hh] at htr
      exact htr rfl
    by_cases hor : o.edgeOriented = false
    · rw [if_pos hor] at h
      cases h
    · rw [if_neg hor] at h
      rcases hpf : o.pathFor (filterSkip
          (skipSetOf (findStationaryPoints o.hav trace)) 0 trace)
          with e | initial_path
      · rw [hpf] at h
        cases h
      · rw [hpf] at h
        simp only at h
        rcases hsm : scoreAndMatch lcss o (TrajectorySegment.new
            (filterSkip (skipSetOf (findStationaryPoints o.hav trace))
              0 trace)
            initial_path) with e | s1
        · rw [hsm] at h
          cases h
        · rw [hsm] at h
          simp only at h
          obtain ⟨htr1, _, _, _, hsubne⟩ :=
            scoreAndMatch_facts lcss o _ s1 hsm
          obtain ⟨htr2, _, _, hsort, hbnd⟩ :=
            computeCuttingPoints_facts lcss s1
          rcases hsp : splitSegment o (computeCuttingPoints lcss s1)
              with e | scheme0
          · rw [hsp] at h
            cases h
          · rw [hsp] at h
            simp only at h
            have hs2tr : (computeCuttingPoints lcss s1).trace
                = filterSkip (skipSetOf (findStationaryPoints o.hav trace))
                    0 trace := by
              rw [htr2, htr1]
              exact rfl
            have hsplit := splitSegment_facts o
              (computeCuttingPoints lcss s1) scheme0
              (by rw [hs2tr]; exact hsubne)
              hsort
              (by
                intro cp hcp
                have := hbnd cp hcp
                have h2 : (computeCuttingPoints lcss s1).trace.length
                    = s1.trace.length := by rw [htr2]
                omega)
              hsp
            rcases hlp : lcssLoop lcss o 10 scheme0 with e | scheme
            · rw [hlp] at h
              cases h
            · rw [hlp] at h
              simp only at h
              have hloop := lcssLoop_facts lcss o 10 scheme0 scheme hlp
              rcases hjn : joinSegments lcss o scheme
                  with e | final_segment
              · rw [hjn] at h
                cases h
              · rw [hjn] at h
                simp only at h
                cases h
                obtain ⟨hjtr, hjlen⟩ :=
                  joinSegments_facts lcss o scheme final_segment hjn
                have hfinal_tr : final_segment.trace
                    = filterSkip
                        (skipSetOf (findStationaryPoints o.hav trace))
                        0 trace := by
                  rw [hjtr, hloop, hsplit.1, hs2tr]
                have hsub_len : (filterSkip
                    (skipSetOf (findStationaryPoints o.hav trace))
                    0 trace).length
                    = (List.range trace.length).countP
                      (fun j => decide
                        (¬ j ∈ skipSetOf (findStationaryPoints o.hav trace)))
                    := by
                  rw [filterSkip_length, List.range_eq_range']
                have hbounds := skipSetOf_bounds o.hav trace htrne
                have hcard : (List.range trace.length).countP
                    (fun j => decide
                      (j ∈ skipSetOf (findStationaryPoints o.hav trace)))
                    = (skipSetOf (findStationaryPoints o.hav trace)).card := by
                  rw [countP_mem_range_card, Finset.filter_true_of_mem]
                  intro x hx
                  exact (hbounds x hx).2
                have hsum := countP_range_split
                  (skipSetOf (findStationaryPoints o.hav trace)) trace.length
                have hmlen : final_segment.point_matches.length
                    + (skipSetOf (findStationaryPoints o.hav trace)).card
                    = trace.length := by
                  rw [hjlen, hfinal_tr, hsub_len]
                  omega
                have hlen := addMatchesForStationaryPoints_length
                  final_segment.point_matches
                  (findStationaryPoints o.hav trace)
                  (by
                    intro x hx
                    refine ⟨(hbounds x hx).1, ?_⟩
                    rw [hmlen]
                    exact (hbounds x hx).2)
                simp only
                rw [hlen, hmlen]

/-- A concrete LCSS configuration for exercising match_trace. -/
def witnessLcss : LcssConfig := ⟨1, 0, 1, 0, 1⟩

/-- A concrete oracle for exercising match_trace: every path search returns
the empty path and the spatial index is edge-oriented. -/
def witnessOracle : MapOracle :=
  ⟨fun _ _ => none, fun _ _ => ⊤, fun _ => .ok [], fun _ => .ok 0,
   fun _ => .ok 0, fun _ _ => .ok [], true⟩

theorem match_trace_point_count_witness :
    (([(⟨0, 0, ⊤⟩ : PointMatch)], ([] : List (EdgeListId × EdgeId))) :
        List PointMatch × List (EdgeListId × EdgeId)).1.length
      = [((0 : ℚ), (0 : ℚ))].length :=
  match_trace_point_count witnessLcss witnessOracle [((0 : ℚ), (0 : ℚ))]
    ([⟨0, 0, ⊤⟩], []) (by rfl)

end Compass
